import Mathlib

/-!
Verification of the context-chef core against its specification.

The development shallowly embeds the core modules of the repository:

* `Stitcher.orderKeysDeterministically` — deterministic canonicalization of
  JSON-like values (`src/modules/stitcher/index.ts`), modelled over the
  `JVal` type of JSON values;
* `Stitcher.injectIntoLastUser` — last-user dynamic-state injection;
* `Janitor` — the compaction controller (token-budget walk, suppression
  hysteresis, compression execution);
* the three target adapters (OpenAI, Anthropic, Gemini).

JavaScript `JSON.parse` is modelled as an abstract total function
`parse : String → Option JVal` (`none` standing for a thrown `SyntaxError`);
adapter compilation that can throw is embedded in `Except Unit`.
-/

namespace ContextChef

/-- Lexicographic comparison of character lists, modelling the default
JavaScript `Array.prototype.sort` string comparison (code-unit order; the
keys appearing in this code base are ASCII, where code-unit order and
code-point order agree). -/
def lexLe : List Char → List Char → Bool
  | [], _ => true
  | _ :: _, [] => false
  | a :: as, b :: bs => if a = b then lexLe as bs else decide (a < b)

/-- String comparison used by the canonical key sort. -/
def strLe (a b : String) : Bool := lexLe a.data b.data

theorem lexLe_total (as : List Char) : ∀ bs, lexLe as bs = true ∨ lexLe bs as = true := by
  induction as with
  | nil => intro bs; left; rfl
  | cons a as ih =>
    intro bs
    cases bs with
    | nil => right; rfl
    | cons b bs =>
      by_cases h : a = b
      · subst h
        simp only [lexLe, if_pos rfl]
        exact ih bs
      · rcases lt_or_gt_of_ne h with hlt | hgt
        · left; simp [lexLe, h, hlt]
        · right
          have h' : b ≠ a := fun hba => h hba.symm
          simp [lexLe, h', hgt]

theorem lexLe_trans : ∀ as bs cs, lexLe as bs = true → lexLe bs cs = true →
    lexLe as cs = true := by
  intro as
  induction as with
  | nil => intro bs cs _ _; rfl
  | cons a as ih =>
    intro bs cs h1 h2
    cases bs with
    | nil => simp [lexLe] at h1
    | cons b bs =>
      cases cs with
      | nil => simp [lexLe] at h2
      | cons c cs =>
        by_cases hab : a = b <;> by_cases hbc : b = c
        · subst hab; subst hbc
          simp only [lexLe, if_pos rfl] at h1 h2 ⊢
          exact ih bs cs h1 h2
        · subst hab
          simp only [lexLe, if_pos rfl, if_neg hbc, decide_eq_true_eq] at h2 ⊢
          have hac : a ≠ c := hbc
          simp [lexLe, hac, h2]
        · subst hbc
          simp only [lexLe, if_neg hab, decide_eq_true_eq] at h1
          have hac : a ≠ b := hab
          simp [lexLe, hac, h1]
        · simp only [lexLe, if_neg hab, decide_eq_true_eq] at h1
          simp only [lexLe, if_neg hbc, decide_eq_true_eq] at h2
          have hac : a < c := lt_trans h1 h2
          have hne : a ≠ c := ne_of_lt hac
          simp [lexLe, hne, hac]

theorem lexLe_antisymm : ∀ as bs, lexLe as bs = true → lexLe bs as = true → as = bs := by
  intro as
  induction as with
  | nil =>
    intro bs _ h2
    cases bs with
    | nil => rfl
    | cons b bs => simp [lexLe] at h2
  | cons a as ih =>
    intro bs h1 h2
    cases bs with
    | nil => simp [lexLe] at h1
    | cons b bs =>
      by_cases hab : a = b
      · subst hab
        simp only [lexLe, if_pos rfl] at h1 h2
        rw [ih bs h1 h2]
      · have hba : b ≠ a := fun h => hab h.symm
        simp only [lexLe, if_neg hab, decide_eq_true_eq] at h1
        simp only [lexLe, if_neg hba, decide_eq_true_eq] at h2
        exact absurd h2 (not_lt_of_gt h1)

theorem string_ext {a b : String} (h : a.data = b.data) : a = b := by
  cases a; cases b; exact congrArg String.mk h

theorem strLe_total (a b : String) : strLe a b = true ∨ strLe b a = true :=
  lexLe_total a.data b.data

theorem strLe_trans {a b c : String} (h1 : strLe a b = true) (h2 : strLe b c = true) :
    strLe a c = true :=
  lexLe_trans a.data b.data c.data h1 h2

theorem strLe_antisymm {a b : String} (h1 : strLe a b = true) (h2 : strLe b a = true) :
    a = b :=
  string_ext (lexLe_antisymm a.data b.data h1 h2)

/-- Characters trimmed by JavaScript `String.prototype.trim` (restricted to
the whitespace characters occurring in this code base). -/
def isJsSpace (c : Char) : Bool := c = ' ' || c = '\n' || c = '\t' || c = '\r'

/-- Model of JavaScript `String.prototype.trim`. -/
def jsTrim (s : String) : String :=
  ⟨((s.data.dropWhile isJsSpace).reverse.dropWhile isJsSpace).reverse⟩

/-- JSON values, the untyped data canonicalized by the Stitcher.
Objects are ordered association lists (JS object keys are unique and
ordered). Numbers are restricted to integers; no claim depends on
numeric values. -/
inductive JVal where
  | null : JVal
  | bool (b : Bool) : JVal
  | num (n : Int) : JVal
  | str (s : String) : JVal
  | arr (elems : List JVal) : JVal
  | obj (fields : List (String × JVal)) : JVal

/-- Comparison used by the canonical key sort: ascending lexical order on
the key of each field (JS `Array.prototype.sort` on `Object.keys`). -/
def keyLe (a b : String × JVal) : Prop := strLe a.1 b.1 = true

instance : DecidableRel keyLe := fun a b => inferInstanceAs (Decidable (strLe a.1 b.1 = true))

instance : IsTotal (String × JVal) keyLe := ⟨fun a b => strLe_total a.1 b.1⟩

instance : IsTrans (String × JVal) keyLe := ⟨fun _ _ _ h h' => strLe_trans h h'⟩

namespace Stitcher

/-- Source: `Stitcher.orderKeysDeterministically`. Non-objects that are not
arrays are returned as-is; arrays are mapped element-wise; for objects the
keys are sorted ascending and every field except `_cache_breakpoint` has
its value rebuilt recursively (the `_cache_breakpoint` field's value is
copied without recursion). -/
def orderKeysDeterministically : JVal → JVal
  | .null => .null
  | .bool b => .bool b
  | .num n => .num n
  | .str s => .str s
  | .arr elems => .arr (elems.attach.map fun x => orderKeysDeterministically x.1)
  | .obj fields =>
      .obj ((List.insertionSort keyLe fields).attach.map fun p =>
        if p.1.1 = "_cache_breakpoint" then p.1
        else (p.1.1, orderKeysDeterministically p.1.2))
termination_by v => sizeOf v
decreasing_by
  · have h1 := List.sizeOf_lt_of_mem x.2
    simp only [JVal.arr.sizeOf_spec]
    omega
  · have hmem : p.1 ∈ fields :=
      (List.perm_insertionSort keyLe fields).mem_iff.mp p.2
    have h1 := List.sizeOf_lt_of_mem hmem
    have h2 : sizeOf p.1.2 < sizeOf p.1 := by
      obtain ⟨a, b⟩ := p.1
      simp only [Prod.mk.sizeOf_spec]
      omega
    simp only [JVal.obj.sizeOf_spec]
    omega

/-- Per-field action of canonicalization: the `_cache_breakpoint` field is
copied verbatim, every other field has its value canonicalized. -/
def canonField (p : String × JVal) : String × JVal :=
  if p.1 = "_cache_breakpoint" then p else (p.1, orderKeysDeterministically p.2)

theorem orderKeys_arr (elems : List JVal) :
    orderKeysDeterministically (.arr elems) =
      .arr (elems.map orderKeysDeterministically) := by
  rw [orderKeysDeterministically]
  exact congrArg JVal.arr (List.attach_map_val elems orderKeysDeterministically)

theorem orderKeys_obj (fields : List (String × JVal)) :
    orderKeysDeterministically (.obj fields) =
      .obj ((List.insertionSort keyLe fields).map canonField) := by
  rw [orderKeysDeterministically]
  exact congrArg JVal.obj
    (List.attach_map_val (List.insertionSort keyLe fields) canonField)

theorem canonField_fst (p : String × JVal) : (canonField p).1 = p.1 := by
  unfold canonField
  split <;> rfl

theorem sorted_map_canonField {l : List (String × JVal)} (h : List.Sorted keyLe l) :
    List.Sorted keyLe (l.map canonField) := by
  apply List.Pairwise.map canonField _ h
  intro a b hab
  unfold keyLe at hab ⊢
  rw [canonField_fst, canonField_fst]
  exact hab

/-- Keys of the fields of an object value (`Object.keys`). -/
def fieldKeys (fields : List (String × JVal)) : List String := fields.map Prod.fst

/-- Two sorted association lists that are permutations of each other and
have no duplicate keys are equal. -/
theorem sorted_perm_nodup_eq :
    ∀ {l₁ l₂ : List (String × JVal)}, l₁.Perm l₂ → List.Sorted keyLe l₁ →
      List.Sorted keyLe l₂ → (fieldKeys l₁).Nodup → l₁ = l₂ := by
  intro l₁
  induction l₁ with
  | nil =>
    intro l₂ hp _ _ _
    exact (List.Perm.nil_eq hp).symm ▸ rfl
  | cons a t ih =>
    intro l₂ hp hs₁ hs₂ hnd
    cases l₂ with
    | nil => exact absurd hp.symm (by simp)
    | cons b t₂ =>
      have hab : a = b := by
        have hbmem : b ∈ a :: t := hp.mem_iff.mpr (List.mem_cons_self b t₂)
        have hamem : a ∈ b :: t₂ := hp.mem_iff.mp (List.mem_cons_self a t)
        have hkey : a.1 = b.1 := by
          rcases List.mem_cons.mp hbmem with hba | hbt
          · exact (congrArg Prod.fst hba).symm
          · rcases List.mem_cons.mp hamem with hab' | hat
            · exact congrArg Prod.fst hab'
            · have h1 : keyLe a b := List.rel_of_sorted_cons hs₁ b hbt
              have h2 : keyLe b a := List.rel_of_sorted_cons hs₂ a hat
              exact strLe_antisymm h1 h2
        rcases List.mem_cons.mp hbmem with hba | hbt
        · exact hba.symm
        · exfalso
          have : a.1 ∈ fieldKeys t := by
            rw [hkey]
            exact List.mem_map_of_mem Prod.fst hbt
          exact (List.nodup_cons.mp hnd).1 this
      subst hab
      have hpt : t.Perm t₂ := hp.cons_inv
      rw [ih hpt hs₁.of_cons hs₂.of_cons (List.nodup_cons.mp hnd).2]

theorem sizeOf_pos (v : JVal) : 0 < sizeOf v := by
  cases v <;> simp only [JVal.null.sizeOf_spec, JVal.bool.sizeOf_spec, JVal.num.sizeOf_spec,
    JVal.str.sizeOf_spec, JVal.arr.sizeOf_spec, JVal.obj.sizeOf_spec] <;> omega

theorem orderKeys_idem_aux :
    ∀ n (v : JVal), sizeOf v ≤ n →
      orderKeysDeterministically (orderKeysDeterministically v) =
        orderKeysDeterministically v := by
  intro n
  induction n with
  | zero =>
    intro v hv
    exact absurd hv (by have := sizeOf_pos v; omega)
  | succ n ih =>
    intro v hv
    cases v with
    | null => simp [orderKeysDeterministically]
    | bool b => simp [orderKeysDeterministically]
    | num m => simp [orderKeysDeterministically]
    | str s => simp [orderKeysDeterministically]
    | arr elems =>
      rw [orderKeys_arr, orderKeys_arr, List.map_map]
      congr 1
      apply List.map_congr_left
      intro x hx
      have hsz : sizeOf x < sizeOf (JVal.arr elems) := by
        have := List.sizeOf_lt_of_mem hx
        simp only [JVal.arr.sizeOf_spec]
        omega
      exact ih x (by omega)
    | obj fields =>
      rw [orderKeys_obj, orderKeys_obj]
      congr 1
      rw [(sorted_map_canonField (List.sorted_insertionSort keyLe fields)).insertionSort_eq,
        List.map_map]
      apply List.map_congr_left
      intro p hp
      have hmem : p ∈ fields := (List.perm_insertionSort keyLe fields).mem_iff.mp hp
      have hsz : sizeOf p.2 < sizeOf (JVal.obj fields) := by
        have h1 := List.sizeOf_lt_of_mem hmem
        have h2 : sizeOf p.2 < sizeOf p := by
          obtain ⟨x, y⟩ := p
          simp only [Prod.mk.sizeOf_spec]
          omega
        simp only [JVal.obj.sizeOf_spec]
        omega
      show canonField (canonField p) = canonField p
      by_cases hbp : p.1 = "_cache_breakpoint"
      · simp [canonField, hbp]
      · simp only [canonField, if_neg hbp]
        exact congrArg (Prod.mk p.1) (ih p.2 (by omega))

/-- Canonicalization is idempotent. -/
theorem orderKeys_idem (v : JVal) :
    orderKeysDeterministically (orderKeysDeterministically v) =
      orderKeysDeterministically v :=
  orderKeys_idem_aux (sizeOf v) v le_rfl

/-- JSON string escaping for the characters relevant here (models the
escaping performed by `JSON.stringify`). -/
def escapeChar (c : Char) : List Char :=
  if c = '"' then ['\\', '"']
  else if c = '\\' then ['\\', '\\']
  else if c = '\n' then ['\\', 'n']
  else if c = '\t' then ['\\', 't']
  else if c = '\r' then ['\\', 'r']
  else [c]

def escapeString (s : String) : String := ⟨(s.data.map escapeChar).flatten⟩

/-- Serialization of a JSON value (models `JSON.stringify`). -/
def stringify : JVal → String
  | .null => "null"
  | .bool b => if b then "true" else "false"
  | .num n => toString n
  | .str s => "\"" ++ escapeString s ++ "\""
  | .arr elems =>
      "[" ++ String.intercalate "," (elems.attach.map fun x => stringify x.1) ++ "]"
  | .obj fields =>
      "\x7b" ++ String.intercalate ","
        (fields.attach.map fun p =>
          "\"" ++ escapeString p.1.1 ++ "\":" ++ stringify p.1.2) ++ "\x7d"
termination_by v => sizeOf v
decreasing_by
  · have h1 := List.sizeOf_lt_of_mem x.2
    simp only [JVal.arr.sizeOf_spec]
    omega
  · have h1 := List.sizeOf_lt_of_mem p.2
    have h2 : sizeOf p.1.2 < sizeOf p.1 := by
      obtain ⟨a, b⟩ := p.1
      simp only [Prod.mk.sizeOf_spec]
      omega
    simp only [JVal.obj.sizeOf_spec]
    omega

/-- Source: `Stitcher.stringifyPayload` — canonicalize, then serialize. -/
def stringifyPayload (payload : JVal) : String :=
  stringify (orderKeysDeterministically payload)

/-- Fields of an object value (used to state properties of canonicalized
objects). -/
def objFields : JVal → List (String × JVal)
  | .obj fields => fields
  | _ => []

/-- Atomic (non-array, non-object) JSON values. -/
def isAtom : JVal → Prop
  | .arr _ => False
  | .obj _ => False
  | _ => True

theorem orderKeys_atom {v : JVal} (h : isAtom v) :
    orderKeysDeterministically v = v := by
  cases v with
  | null => simp [orderKeysDeterministically]
  | bool b => simp [orderKeysDeterministically]
  | num n => simp [orderKeysDeterministically]
  | str s => simp [orderKeysDeterministically]
  | arr elems => exact absurd h (by simp [isAtom])
  | obj fields => exact absurd h (by simp [isAtom])

end Stitcher

/-- Conversational roles of the IR (`src/types/index.ts`). -/
inductive Role where
  | system
  | user
  | assistant
  | tool
deriving DecidableEq

/-- The function carried by a tool call (`ToolCall.function`). -/
structure ToolCallFunction where
  name : String
  arguments : String
deriving DecidableEq

/-- A tool invocation recorded on an assistant turn (`ToolCall`; the
constant discriminator `type: 'function'` carries no information and is
omitted). -/
structure ToolCall where
  id : String
  function : ToolCallFunction
deriving DecidableEq

/-- Extended-thinking content (`ThinkingContent`). -/
structure ThinkingContent where
  thinking : String
  signature : Option String := none
deriving DecidableEq

/-- Redacted-thinking blob (`RedactedThinking`). -/
structure RedactedThinking where
  data : String
deriving DecidableEq

/-- The provider-agnostic message IR (`Message` in `src/types/index.ts`).
The JS field `_cache_breakpoint?: boolean` is modelled as the Bool field
`cache_breakpoint` (an absent field and `false` are equally falsy);
optional fields are `Option`s. The open extension map is irrelevant to the
typed pipeline claims and is modelled separately (`JVal`) for the
canonicalization claims. -/
structure Message where
  role : Role
  content : String
  name : Option String := none
  tool_calls : Option (List ToolCall) := none
  tool_call_id : Option String := none
  cache_breakpoint : Bool := false
  thinking : Option ThinkingContent := none
  redacted_thinking : Option RedactedThinking := none
deriving DecidableEq

instance : Inhabited Message := ⟨{ role := .user, content := "" }⟩

namespace Stitcher

/-- The fixed delimiter block wrapped around injected dynamic-state XML
(the `stateBlock` template literal in `Stitcher.injectIntoLastUser`). -/
def stateBlockOf (dynamicStateXml : String) : String :=
  "\n\n<dynamic_state>\n" ++ dynamicStateXml ++
    "\n</dynamic_state>\nAbove is the current system state. Use it to guide your next action."

/-- Index of the last message whose role is `user` (the backward index
loop in `Stitcher.injectIntoLastUser`), `none` when no user message
exists. -/
def lastUserIdx : List Message → Option Nat
  | [] => none
  | m :: rest =>
    match lastUserIdx rest with
    | some i => some (i + 1)
    | none => if m.role = .user then some 0 else none

/-- Source: `Stitcher.injectIntoLastUser` — append the wrapped block to the
last user message, or push a new synthetic user message holding only the
trimmed block. -/
def injectIntoLastUser (messages : List Message) (dynamicStateXml : String) :
    List Message :=
  let stateBlock := stateBlockOf dynamicStateXml
  match lastUserIdx messages with
  | some i =>
      messages.set i
        { messages.getD i default with
          content := (messages.getD i default).content ++ stateBlock }
  | none => messages ++ [{ role := .user, content := jsTrim stateBlock }]

/-- Placement options for injected dynamic state
(`DynamicStatePlacement`). -/
inductive DynamicStatePlacement where
  | system
  | last_user
deriving DecidableEq

/-- Source: `StitchOptions`. -/
structure StitchOptions where
  dynamicStateXml : Option String := none
  placement : Option DynamicStatePlacement := none
deriving DecidableEq

/-- The injection step of `Stitcher.compile`: inject the dynamic-state XML
when it is non-empty (JS truthiness of the string) and placement is
`last_user`. The subsequent per-message key canonicalization of `compile`
is modelled separately on `JVal`. -/
def compileInjection (messages : List Message) (options : Option StitchOptions) :
    List Message :=
  match options with
  | some opts =>
      match opts.dynamicStateXml with
      | some xml =>
          if xml ≠ "" ∧ opts.placement = some .last_user then
            injectIntoLastUser messages xml
          else messages
      | none => messages
  | none => messages

theorem lastUserIdx_lt {ms : List Message} {i : Nat}
    (h : lastUserIdx ms = some i) : i < ms.length := by
  induction ms generalizing i with
  | nil => exact absurd h (by simp [lastUserIdx])
  | cons m rest ih =>
    rw [lastUserIdx] at h
    cases hr : lastUserIdx rest with
    | some j =>
      rw [hr] at h
      have hij : i = j + 1 := (Option.some_inj.mp h).symm
      have := ih hr
      simp only [List.length_cons]
      omega
    | none =>
      rw [hr] at h
      by_cases hm : m.role = .user
      · rw [if_pos hm] at h
        have hij : i = 0 := (Option.some_inj.mp h).symm
        simp only [List.length_cons]
        omega
      · rw [if_neg hm] at h
        exact absurd h (by simp)

theorem lastUserIdx_role {ms : List Message} {i : Nat}
    (h : lastUserIdx ms = some i) : (ms.getD i default).role = .user := by
  induction ms generalizing i with
  | nil => exact absurd h (by simp [lastUserIdx])
  | cons m rest ih =>
    rw [lastUserIdx] at h
    cases hr : lastUserIdx rest with
    | some j =>
      rw [hr] at h
      have hij : i = j + 1 := (Option.some_inj.mp h).symm
      subst hij
      rw [List.getD_cons_succ]
      exact ih hr
    | none =>
      rw [hr] at h
      by_cases hm : m.role = .user
      · rw [if_pos hm] at h
        have hij : i = 0 := (Option.some_inj.mp h).symm
        subst hij
        rw [List.getD_cons_zero]
        exact hm
      · rw [if_neg hm] at h
        exact absurd h (by simp)

theorem lastUserIdx_none {ms : List Message} (h : lastUserIdx ms = none) :
    ∀ m ∈ ms, m.role ≠ .user := by
  induction ms with
  | nil => intro m hm; exact absurd hm (by simp)
  | cons m rest ih =>
    rw [lastUserIdx] at h
    cases hr : lastUserIdx rest with
    | some j => rw [hr] at h; exact absurd h (by simp)
    | none =>
      rw [hr] at h
      by_cases hm : m.role = .user
      · rw [if_pos hm] at h; exact absurd h (by simp)
      · rw [if_neg hm] at h
        intro x hx
        rcases List.mem_cons.mp hx with hxm | hxr
        · rw [hxm]; exact hm
        · exact ih hr x hxr

theorem lastUserIdx_last {ms : List Message} {i : Nat}
    (h : lastUserIdx ms = some i) :
    ∀ j, i < j → j < ms.length → (ms.getD j default).role ≠ .user := by
  induction ms generalizing i with
  | nil => exact absurd h (by simp [lastUserIdx])
  | cons m rest ih =>
    rw [lastUserIdx] at h
    cases hr : lastUserIdx rest with
    | some j' =>
      rw [hr] at h
      have hij : i = j' + 1 := (Option.some_inj.mp h).symm
      subst hij
      intro j hji hjlen
      obtain ⟨k, rfl⟩ : ∃ k, j = k + 1 := ⟨j - 1, by omega⟩
      rw [List.getD_cons_succ]
      exact ih hr k (by omega) (by simpa [Nat.succ_lt_succ_iff] using hjlen)
    | none =>
      rw [hr] at h
      by_cases hm : m.role = .user
      · rw [if_pos hm] at h
        have hij : i = 0 := (Option.some_inj.mp h).symm
        subst hij
        intro j hji hjlen
        obtain ⟨k, rfl⟩ : ∃ k, j = k + 1 := ⟨j - 1, by omega⟩
        rw [List.getD_cons_succ]
        have hk : k < rest.length := by
          simp only [List.length_cons] at hjlen
          omega
        have hmem : rest.getD k default ∈ rest := by
          simp only [List.getD_eq_getElem?_getD, List.getElem?_eq_getElem hk,
            Option.getD_some]
          exact List.getElem_mem hk
        exact lastUserIdx_none hr _ hmem
      · rw [if_neg hm] at h
        exact absurd h (by simp)

end Stitcher

namespace Prompts

/-- Source: `Prompts.CONTEXT_COMPACTION_INSTRUCTION` (the fixed compaction
instruction appended to the truncated slice handed to the summarizer). -/
def CONTEXT_COMPACTION_INSTRUCTION : String :=
  "You have been working on the task described above but have not yet completed it. Write a continuation summary that will allow you (or another instance of yourself) to resume work efficiently in a future context window where the conversation history will be replaced with this summary. Your summary should be structured, concise, and actionable. Include:\n1. Task Overview\nThe user's core request and success criteria\nAny clarifications or constraints they specified\n2. Current State\nWhat has been completed so far\nFiles created, modified, or analyzed (with paths if relevant)\nKey outputs or artifacts produced\n3. Important Discoveries\nTechnical constraints or requirements uncovered\nDecisions made and their rationale\nErrors encountered and how they were resolved\nWhat approaches were tried that didn't work (and why)\n4. Next Steps\nSpecific actions needed to complete the task\nAny blockers or open questions to resolve\nPriority order if multiple steps remain\n5. Context to Preserve\nUser preferences or style requirements\nDomain-specific details that aren't obvious\nAny promises made to the user\nBe concise but complete—err on the side of including information that would prevent duplicate work or repeated mistakes. Write in a way that enables immediate resumption of the task.\nWrap your summary in <summary></summary> tags."

/-- Source: `Prompts.getFallbackCompressionSummary` (already trimmed). -/
def getFallbackCompressionSummary (truncatedCount : Nat) : String :=
  "<history_summary>\n<ephemeral_message type=\"history_truncated\">\n[System: " ++
    toString truncatedCount ++
    " older messages were truncated and compressed to respect context limits.]\n</ephemeral_message>\n</history_summary>"

/-- Source: `Prompts.getPrefillEnforcement` (already trimmed). -/
def getPrefillEnforcement (prefillContent : String) : String :=
  "<ephemeral_message type=\"prefill_enforcement\">\nSYSTEM INSTRUCTION: Your response MUST start verbatim with the following text:\n\"" ++
    prefillContent ++
    "\"\n\nDo not output any introductory text or acknowledgement. Start directly with the text above.\n</ephemeral_message>"

end Prompts

namespace Janitor

/-- Configuration of the compaction controller (`JanitorConfig`).

The `tokenizer` field is the resolved token counter of `getTokenCount`:
the caller-supplied custom tokenizer when configured, otherwise the
built-in `TokenUtils.estimateObject` heuristic. All budget claims are
proved for an arbitrary counter, hence hold for either resolution.

`compressionModel` is the caller-supplied asynchronous summarizer,
modelled as a pure function returning either its text or a thrown error
(`Except.error`). The `onCompress` hook is a side-effect callback that
does not affect the return value and is not modelled. -/
structure JanitorConfig where
  maxHistoryLimit : Option Nat := none
  preserveRecentCount : Option Nat := none
  maxHistoryTokens : Option Nat := none
  preserveRecentTokens : Option Nat := none
  tokenizer : List Message → Nat
  compressionModel : Option (List Message → Except String String) := none

/-- The per-conversation budget state (`_externalTokenUsage` and
`_suppressNextCompression` of the `Janitor` class). -/
structure JanitorState where
  externalTokenUsage : Option Nat := none
  suppressNextCompression : Bool := false
deriving DecidableEq

/-- JS truthiness of an optional numeric configuration field (`undefined`
and `0` are falsy). -/
def truthy : Option Nat → Bool
  | some n => n != 0
  | none => false

/-- Source: `Janitor.getTokenCount` with the tokenizer already resolved
(see `JanitorConfig.tokenizer`). -/
def getTokenCount (cfg : JanitorConfig) (messages : List Message) : Nat :=
  cfg.tokenizer messages

/-- Source: `Janitor.feedTokenUsage`. -/
def feedTokenUsage (st : JanitorState) (tokenCount : Nat) : JanitorState :=
  { st with externalTokenUsage := some tokenCount }

/-- The backward walk of `evaluateBudget`, expressed along the reversed
history: the number of trailing messages kept within the preserve budget.
The loop breaks at the first message whose inclusion would push the running
sum over `preserveTarget`; its final `splitIndex` equals
`history.length - keptWalk tok preserveTarget history.reverse 0`. -/
def keptWalk (tok : Message → Nat) (preserveTarget : Nat) :
    List Message → Nat → Nat
  | [], _ => 0
  | m :: rest, accumulatedTokens =>
    let msgTokens := tok m
    if accumulatedTokens + msgTokens > preserveTarget then 0
    else keptWalk tok preserveTarget rest (accumulatedTokens + msgTokens) + 1

/-- The split index computed by the token-mode walk of `evaluateBudget`
(source lines: the backward traversal plus the forced
minimum-one-message-retention adjustment). -/
def tokenModeSplit (cfg : JanitorConfig) (preserveTarget : Nat)
    (history : List Message) : Nat :=
  let kept := keptWalk (fun m => getTokenCount cfg [m]) preserveTarget
    history.reverse 0
  let splitIndex := history.length - kept
  if splitIndex = history.length ∧ 0 < history.length then
    history.length - 1
  else splitIndex

/-- Source: `Janitor.evaluateBudget`. Returns the split index (or `none`)
together with the updated budget state. The token-mode default preserve
budget `Math.floor(maxHistoryTokens * 0.7)` (and the count-mode default
`Math.floor(maxHistoryLimit * 0.7)`) are modelled in exact arithmetic as
`7 * x / 10`; every theorem below supplies the budgets explicitly, so the
floating-point defaults are never relied upon. -/
def evaluateBudget (cfg : JanitorConfig) (st : JanitorState)
    (history : List Message) : Option Nat × JanitorState :=
  if history.length = 0 then (none, st)
  else if st.suppressNextCompression then
    (none, { st with suppressNextCompression := false })
  else if truthy cfg.maxHistoryTokens then
    let maxTokens := cfg.maxHistoryTokens.getD 0
    let localEstimate := getTokenCount cfg history
    let totalTokens := max localEstimate (st.externalTokenUsage.getD 0)
    let st' : JanitorState := { st with externalTokenUsage := none }
    if totalTokens ≤ maxTokens then (none, st')
    else
      let preserveTarget := cfg.preserveRecentTokens.getD (7 * maxTokens / 10)
      let splitIndex := tokenModeSplit cfg preserveTarget history
      if 0 < splitIndex then (some splitIndex, st') else (none, st')
  else if truthy cfg.maxHistoryLimit then
    let limit := cfg.maxHistoryLimit.getD 0
    if limit < history.length then
      let preserveCount := cfg.preserveRecentCount.getD (7 * limit / 10)
      let splitIndex := history.length - preserveCount
      if 0 < splitIndex then (some splitIndex, st) else (none, st)
    else (none, st)
  else (none, st)

/-- Source: `Janitor.executeCompression`. The summarizer receives the
truncated prefix plus the fixed compaction-instruction turn; on failure
(or with no summarizer configured) the deterministic placeholder is used,
with the failure reason appended. Sets the one-shot suppression flag. -/
def executeCompression (cfg : JanitorConfig) (st : JanitorState)
    (history : List Message) (splitIndex : Nat) :
    List Message × JanitorState :=
  let toCompress := history.take splitIndex
  let toKeep := history.drop splitIndex
  let summaryText :=
    match cfg.compressionModel with
    | none => Prompts.getFallbackCompressionSummary toCompress.length
    | some compressionModel =>
      match compressionModel (toCompress ++
          [{ role := .user, content := Prompts.CONTEXT_COMPACTION_INSTRUCTION }]) with
      | .ok summary => summary
      | .error err =>
          Prompts.getFallbackCompressionSummary toCompress.length ++
            "\n(Compression failed: " ++ err ++ ")"
  let summaryMessage : Message := { role := .system, content := summaryText }
  (summaryMessage :: toKeep, { st with suppressNextCompression := true })

/-- Source: `Janitor.compress`. -/
def compress (cfg : JanitorConfig) (st : JanitorState)
    (history : List Message) : List Message × JanitorState :=
  match evaluateBudget cfg st history with
  | (none, st') => (history, st')
  | (some splitIndex, st') => executeCompression cfg st' history splitIndex

/-- Estimated size of a run of messages, one message at a time (the
`getTokenCount([history[i]])` calls of the walk). -/
def sumTok (tok : Message → Nat) (l : List Message) : Nat := (l.map tok).sum

theorem keptWalk_le_length (tok : Message → Nat) (p : Nat) :
    ∀ (l : List Message) (acc : Nat), keptWalk tok p l acc ≤ l.length := by
  intro l
  induction l with
  | nil => intro acc; simp [keptWalk]
  | cons m rest ih =>
    intro acc
    rw [keptWalk]
    split
    · simp
    · simp only [List.length_cons]
      exact Nat.succ_le_succ (ih _)

theorem keptWalk_sum_le (tok : Message → Nat) (p : Nat) :
    ∀ (l : List Message) (acc : Nat), acc ≤ p →
      acc + sumTok tok (l.take (keptWalk tok p l acc)) ≤ p := by
  intro l
  induction l with
  | nil => intro acc hacc; simpa [keptWalk, sumTok] using hacc
  | cons m rest ih =>
    intro acc hacc
    rw [keptWalk]
    split
    · simpa [sumTok] using hacc
    · rename_i hle
      push_neg at hle
      have := ih (acc + tok m) hle
      simp only [List.take_succ_cons, sumTok, List.map_cons, List.sum_cons]
      simp only [sumTok] at this
      omega

theorem keptWalk_stop (tok : Message → Nat) (p : Nat) :
    ∀ (l : List Message) (acc : Nat), keptWalk tok p l acc < l.length →
      acc + sumTok tok (l.take (keptWalk tok p l acc + 1)) > p := by
  intro l
  induction l with
  | nil => intro acc h; simp [keptWalk] at h
  | cons m rest ih =>
    intro acc h
    rw [keptWalk] at h ⊢
    split
    · rename_i hgt
      simpa [sumTok] using hgt
    · rename_i hle
      rw [if_neg hle] at h
      simp only [List.length_cons] at h
      have hlt : keptWalk tok p rest (acc + tok m) < rest.length :=
        Nat.lt_of_succ_lt_succ h
      have := ih (acc + tok m) hlt
      simp only [List.take_succ_cons, sumTok, List.map_cons, List.sum_cons]
      simp only [sumTok] at this
      omega

theorem keptWalk_all (tok : Message → Nat) (p : Nat) :
    ∀ (l : List Message) (acc : Nat), acc + sumTok tok l ≤ p →
      keptWalk tok p l acc = l.length := by
  intro l
  induction l with
  | nil => intro acc _; simp [keptWalk]
  | cons m rest ih =>
    intro acc hle
    simp only [sumTok, List.map_cons, List.sum_cons] at hle
    rw [keptWalk]
    have hfit : ¬ acc + tok m > p := by omega
    rw [if_neg hfit]
    simp only [List.length_cons]
    have : keptWalk tok p rest (acc + tok m) = rest.length := by
      apply ih
      simp only [sumTok]
      omega
    omega

theorem sumTok_reverse (tok : Message → Nat) (l : List Message) :
    sumTok tok l.reverse = sumTok tok l := by
  simp [sumTok, List.map_reverse, List.sum_reverse]

theorem tokenModeSplit_eq (cfg : JanitorConfig) (P : Nat) {history : List Message}
    (hne : history ≠ []) :
    tokenModeSplit cfg P history =
      if keptWalk (fun m => getTokenCount cfg [m]) P history.reverse 0 = 0 then
        history.length - 1
      else history.length - keptWalk (fun m => getTokenCount cfg [m]) P history.reverse 0 := by
  have hk_le : keptWalk (fun m => getTokenCount cfg [m]) P history.reverse 0 ≤
      history.length := by
    simpa using keptWalk_le_length (fun m => getTokenCount cfg [m]) P history.reverse 0
  have hn0 : 0 < history.length := List.length_pos.mpr hne
  unfold tokenModeSplit
  by_cases hk0 : keptWalk (fun m => getTokenCount cfg [m]) P history.reverse 0 = 0
  · rw [if_pos hk0, if_pos]
    exact ⟨by omega, hn0⟩
  · rw [if_neg hk0, if_neg]
    intro ⟨heq, _⟩
    omega

theorem tokenModeSplit_le (cfg : JanitorConfig) (P : Nat) {history : List Message}
    (hne : history ≠ []) : tokenModeSplit cfg P history ≤ history.length - 1 := by
  have hk_le : keptWalk (fun m => getTokenCount cfg [m]) P history.reverse 0 ≤
      history.length := by
    simpa using keptWalk_le_length (fun m => getTokenCount cfg [m]) P history.reverse 0
  have hn0 : 0 < history.length := List.length_pos.mpr hne
  rw [tokenModeSplit_eq cfg P hne]
  split <;> omega

theorem evaluateBudget_token (cfg : JanitorConfig) (st : JanitorState)
    (history : List Message) (M P : Nat)
    (hs : st.suppressNextCompression = false)
    (hM : cfg.maxHistoryTokens = some M) (hM0 : 0 < M)
    (hP : cfg.preserveRecentTokens = some P)
    (hne : history ≠ [])
    (hover : M < max (getTokenCount cfg history) (st.externalTokenUsage.getD 0)) :
    evaluateBudget cfg st history =
      (if 0 < tokenModeSplit cfg P history then
        some (tokenModeSplit cfg P history) else none,
       { st with externalTokenUsage := none }) := by
  have h0 : ¬ history.length = 0 := by
    simpa [List.length_eq_zero] using hne
  have htr : truthy cfg.maxHistoryTokens = true := by
    rw [hM]
    simp only [truthy, bne_iff_ne, ne_eq]
    omega
  rw [evaluateBudget, if_neg h0]
  rw [hs]
  simp only [Bool.false_eq_true, if_false]
  rw [htr]
  simp only [if_true]
  rw [hM, hP]
  simp only [Option.getD_some]
  rw [if_neg (not_le.mpr hover)]
  split <;> rfl

theorem evaluateBudget_some {cfg : JanitorConfig} {st st' : JanitorState}
    {history : List Message} {s : Nat}
    (hev : evaluateBudget cfg st history = (some s, st')) :
    0 < s ∧ s ≤ history.length := by
  simp only [evaluateBudget] at hev
  split at hev
  · exact absurd (congrArg Prod.fst hev) (by simp)
  · split at hev
    · exact absurd (congrArg Prod.fst hev) (by simp)
    · split at hev
      · rename_i hne0 _ _
        have hne : history ≠ [] := by
          intro h
          exact hne0 (by simp [h])
        split at hev
        · exact absurd (congrArg Prod.fst hev) (by simp)
        · split at hev
          · rename_i hpos
            have hsv : tokenModeSplit cfg
                ((cfg.preserveRecentTokens).getD
                  (7 * (cfg.maxHistoryTokens).getD 0 / 10)) history = s := by
              have := congrArg Prod.fst hev
              simpa using this
            have hle := tokenModeSplit_le cfg
              ((cfg.preserveRecentTokens).getD
                (7 * (cfg.maxHistoryTokens).getD 0 / 10)) hne
            rw [hsv] at hle hpos
            exact ⟨hpos, by omega⟩
          · exact absurd (congrArg Prod.fst hev) (by simp)
      · split at hev
        · split at hev
          · split at hev
            · rename_i hpos
              have hsv : history.length - (cfg.preserveRecentCount).getD
                  (7 * (cfg.maxHistoryLimit).getD 0 / 10) = s := by
                have := congrArg Prod.fst hev
                simpa using this
              rw [hsv] at hpos
              exact ⟨hpos, by omega⟩
            · exact absurd (congrArg Prod.fst hev) (by simp)
          · exact absurd (congrArg Prod.fst hev) (by simp)
        · exact absurd (congrArg Prod.fst hev) (by simp)

end Janitor

/-- Index of the last element satisfying `p` (the shared backward-loop
pattern of the adapters' prefill degradation), `none` when no element
satisfies it. -/
def lastIdxWhere {α : Type} (p : α → Prop) [DecidablePred p] : List α → Option Nat
  | [] => none
  | a :: rest =>
    match lastIdxWhere p rest with
    | some i => some (i + 1)
    | none => if p a then some 0 else none

theorem lastIdxWhere_lt {α : Type} {p : α → Prop} [DecidablePred p]
    {l : List α} {i : Nat} (h : lastIdxWhere p l = some i) : i < l.length := by
  induction l generalizing i with
  | nil => exact absurd h (by simp [lastIdxWhere])
  | cons a rest ih =>
    rw [lastIdxWhere] at h
    cases hr : lastIdxWhere p rest with
    | some j =>
      rw [hr] at h
      have hij : i = j + 1 := (Option.some_inj.mp h).symm
      have := ih hr
      simp only [List.length_cons]
      omega
    | none =>
      rw [hr] at h
      by_cases ha : p a
      · rw [if_pos ha] at h
        have hij : i = 0 := (Option.some_inj.mp h).symm
        simp only [List.length_cons]
        omega
      · rw [if_neg ha] at h
        exact absurd h (by simp)

theorem lastIdxWhere_prop {α : Type} {p : α → Prop} [DecidablePred p]
    [Inhabited α] {l : List α} {i : Nat} (h : lastIdxWhere p l = some i) :
    p (l.getD i default) := by
  induction l generalizing i with
  | nil => exact absurd h (by simp [lastIdxWhere])
  | cons a rest ih =>
    rw [lastIdxWhere] at h
    cases hr : lastIdxWhere p rest with
    | some j =>
      rw [hr] at h
      have hij : i = j + 1 := (Option.some_inj.mp h).symm
      subst hij
      rw [List.getD_cons_succ]
      exact ih hr
    | none =>
      rw [hr] at h
      by_cases ha : p a
      · rw [if_pos ha] at h
        have hij : i = 0 := (Option.some_inj.mp h).symm
        subst hij
        rw [List.getD_cons_zero]
        exact ha
      · rw [if_neg ha] at h
        exact absurd h (by simp)

theorem lastIdxWhere_none {α : Type} {p : α → Prop} [DecidablePred p]
    {l : List α} (h : lastIdxWhere p l = none) : ∀ a ∈ l, ¬ p a := by
  induction l with
  | nil => intro a ha; exact absurd ha (by simp)
  | cons a rest ih =>
    rw [lastIdxWhere] at h
    cases hr : lastIdxWhere p rest with
    | some j => rw [hr] at h; exact absurd h (by simp)
    | none =>
      rw [hr] at h
      by_cases ha : p a
      · rw [if_pos ha] at h; exact absurd h (by simp)
      · rw [if_neg ha] at h
        intro x hx
        rcases List.mem_cons.mp hx with hxa | hxr
        · rw [hxa]; exact ha
        · exact ih hr x hxr

theorem lastIdxWhere_none_of {α : Type} {p : α → Prop} [DecidablePred p]
    [Inhabited α] {l : List α} (h : ∀ a ∈ l, ¬ p a) : lastIdxWhere p l = none := by
  cases hr : lastIdxWhere p l with
  | none => rfl
  | some i =>
    have hi := lastIdxWhere_lt hr
    have hp := lastIdxWhere_prop hr
    have hmem : l.getD i default ∈ l := by
      simp only [List.getD_eq_getElem?_getD, List.getElem?_eq_getElem hi,
        Option.getD_some]
      exact List.getElem_mem hi
    exact absurd hp (h _ hmem)

theorem lastIdxWhere_after {α : Type} {p : α → Prop} [DecidablePred p]
    [Inhabited α] {l : List α} {i : Nat} (h : lastIdxWhere p l = some i) :
    ∀ j, i < j → j < l.length → ¬ p (l.getD j default) := by
  induction l generalizing i with
  | nil => exact absurd h (by simp [lastIdxWhere])
  | cons a rest ih =>
    rw [lastIdxWhere] at h
    cases hr : lastIdxWhere p rest with
    | some j' =>
      rw [hr] at h
      have hij : i = j' + 1 := (Option.some_inj.mp h).symm
      subst hij
      intro j hji hjlen
      obtain ⟨k, rfl⟩ : ∃ k, j = k + 1 := ⟨j - 1, by omega⟩
      rw [List.getD_cons_succ]
      exact ih hr k (by omega) (by simpa [Nat.succ_lt_succ_iff] using hjlen)
    | none =>
      rw [hr] at h
      by_cases ha : p a
      · rw [if_pos ha] at h
        have hij : i = 0 := (Option.some_inj.mp h).symm
        subst hij
        intro j hji hjlen
        obtain ⟨k, rfl⟩ : ∃ k, j = k + 1 := ⟨j - 1, by omega⟩
        rw [List.getD_cons_succ]
        have hk : k < rest.length := by
          simp only [List.length_cons] at hjlen
          omega
        have hmem : rest.getD k default ∈ rest := by
          simp only [List.getD_eq_getElem?_getD, List.getElem?_eq_getElem hk,
            Option.getD_some]
          exact List.getElem_mem hk
        exact lastIdxWhere_none hr _ hmem
      · rw [if_neg ha] at h
        exact absurd h (by simp)

namespace OpenAIAdapter

/-- An OpenAI Chat Completions message: the IR message with
`_cache_breakpoint`, `thinking` and `redacted_thinking` stripped by the
destructuring (the `JSON.parse(JSON.stringify(cleanMsg))` round trip is the
identity on the remaining typed fields). -/
structure OAMessage where
  role : Role
  content : String
  name : Option String := none
  tool_calls : Option (List ToolCall) := none
  tool_call_id : Option String := none
deriving DecidableEq

instance : Inhabited OAMessage := ⟨{ role := .user, content := "" }⟩

/-- The per-message strip of `OpenAIAdapter.compile`. -/
def strip (m : Message) : OAMessage :=
  { role := m.role, content := m.content, name := m.name,
    tool_calls := m.tool_calls, tool_call_id := m.tool_call_id }

/-- The backward search of the prefill degradation: last message whose
role is `user` or `system`. -/
def lastUserOrSystemIdx (l : List OAMessage) : Option Nat :=
  lastIdxWhere (fun m => m.role = .user ∨ m.role = .system) l

/-- Source: `OpenAIAdapter.compile`. Strips internal fields; if the last
message is an assistant turn with no tool calls (absent or empty array), it
is removed and its content is appended — wrapped in the prefill-enforcement
instruction — to the nearest preceding user-or-system message; when no such
message exists the popped content is dropped. -/
def compile (messages : List Message) : List OAMessage :=
  let formattedMessages := messages.map strip
  match formattedMessages.getLast? with
  | none => formattedMessages
  | some lastMsg =>
    if lastMsg.role = .assistant ∧
        (lastMsg.tool_calls = none ∨ lastMsg.tool_calls = some []) then
      let rest := formattedMessages.dropLast
      let prefillContent := lastMsg.content
      match lastUserOrSystemIdx rest with
      | some i =>
          rest.set i
            { rest.getD i default with
              content := (rest.getD i default).content ++ "\n\n" ++
                Prompts.getPrefillEnforcement prefillContent }
      | none => rest
    else formattedMessages

end OpenAIAdapter

namespace GeminiAdapter

/-- Gemini request roles. -/
inductive GRole where
  | user
  | model
deriving DecidableEq

/-- Gemini content parts (text, function call, function response). -/
inductive GPart where
  | text (text : String)
  | functionCall (name : String) (args : JVal)
  | functionResponse (name : String) (response : JVal)

/-- One Gemini content entry. -/
structure GContent where
  role : GRole
  parts : List GPart

instance : Inhabited GContent := ⟨⟨.user, []⟩⟩

/-- The Gemini payload (`{ messages, systemInstruction? }`). -/
structure GeminiPayload where
  messages : List GContent
  systemInstruction : Option (List GPart) := none

/-- The function-call parts built from an assistant turn's tool calls; a
tool call whose `arguments` text fails to parse raises (the uncaught
`JSON.parse` of the assistant branch). -/
def parseFunctionCalls (parse : String → Option JVal) :
    List ToolCall → Except Unit (List GPart)
  | [] => .ok []
  | tc :: rest =>
    match parse tc.function.arguments with
    | none => .error ()
    | some args =>
      match parseFunctionCalls parse rest with
      | .error e => .error e
      | .ok parts => .ok (.functionCall tc.function.name args :: parts)

/-- One iteration of the message loop of `GeminiAdapter.compile`,
accumulating `(systemParts, contents)`. A tool-result message whose content
fails to parse is wrapped as `{result: content}` inside a caught branch; an
assistant tool call whose arguments fail to parse raises. -/
def step (parse : String → Option JVal)
    (acc : List GPart × List GContent) (msg : Message) :
    Except Unit (List GPart × List GContent) :=
  match msg.role with
  | .system => .ok (acc.1 ++ [.text msg.content], acc.2)
  | .tool =>
    let parsedResponse :=
      match parse msg.content with
      | some o => o
      | none => JVal.obj [("result", JVal.str msg.content)]
    let nm := (msg.name.orElse fun _ => msg.tool_call_id).getD "unknown"
    .ok (acc.1, acc.2 ++ [⟨.user, [.functionResponse nm parsedResponse]⟩])
  | .assistant =>
    match msg.tool_calls with
    | some tcs =>
      if 0 < tcs.length then
        match parseFunctionCalls parse tcs with
        | .error e => .error e
        | .ok callParts =>
          .ok (acc.1, acc.2 ++ [⟨.model,
            (if msg.content ≠ "" then [GPart.text msg.content] else []) ++
              callParts⟩])
      else .ok (acc.1, acc.2 ++ [⟨.model, [.text msg.content]⟩])
    | none => .ok (acc.1, acc.2 ++ [⟨.model, [.text msg.content]⟩])
  | .user => .ok (acc.1, acc.2 ++ [⟨.user, [.text msg.content]⟩])

/-- The message loop of `GeminiAdapter.compile`. -/
def build (parse : String → Option JVal) :
    List Message → List GPart × List GContent →
      Except Unit (List GPart × List GContent)
  | [], acc => .ok acc
  | msg :: rest, acc =>
    match step parse acc msg with
    | .error e => .error e
    | .ok acc' => build parse rest acc'

/-- Decidable test for a leading text part. -/
def hasLeadingText : List GPart → Bool
  | .text _ :: _ => true
  | _ => false

/-- The property selected by the Gemini backward search: a user entry whose
first part is a text part. -/
def isUserText (c : GContent) : Prop := c.role = .user ∧ hasLeadingText c.parts = true

instance : DecidablePred isUserText := fun c =>
  inferInstanceAs (Decidable (c.role = .user ∧ hasLeadingText c.parts = true))

/-- The backward search of the Gemini prefill degradation. -/
def lastUserTextIdx (l : List GContent) : Option Nat := lastIdxWhere isUserText l

/-- Source: the prefill-degradation block of `GeminiAdapter.compile`
(trailing plain model message popped; its text appended — wrapped in the
prefill-enforcement instruction — to the last user entry with a leading
text part, or pushed onto the system parts when no user entry remains). -/
def degrade (sysParts : List GPart) (contents : List GContent) :
    List GPart × List GContent :=
  match contents.getLast? with
  | none => (sysParts, contents)
  | some last =>
    match last.role, last.parts with
    | .model, [.text prefillContent] =>
      let rest := contents.dropLast
      let rest' :=
        match lastUserTextIdx rest with
        | some i =>
          match (rest.getD i default).parts with
          | .text t0 :: _ =>
            rest.set i ⟨.user, [.text (t0 ++ "\n\n" ++
              Prompts.getPrefillEnforcement prefillContent)]⟩
          | _ => rest
        | none => rest
      if ∀ c ∈ rest', ¬ c.role = .user then
        (sysParts ++ [.text (Prompts.getPrefillEnforcement prefillContent)], rest')
      else (sysParts, rest')
    | _, _ => (sysParts, contents)

/-- Source: `GeminiAdapter.compile`. -/
def compile (parse : String → Option JVal) (messages : List Message) :
    Except Unit GeminiPayload :=
  match build parse messages ([], []) with
  | .error e => .error e
  | .ok acc =>
    let degraded := degrade acc.1 acc.2
    .ok { messages := degraded.2,
          systemInstruction :=
            if 0 < degraded.1.length then some degraded.1 else none }

end GeminiAdapter

namespace AnthropicAdapter

/-- Anthropic content blocks (`type: text | thinking | redacted_thinking |
tool_use | tool_result`); `cache_control` records the presence of the
ephemeral cache annotation. -/
inductive ABlock where
  | text (text : String) (cache_control : Bool)
  | thinking (thinking : String) (signature : String)
  | redacted_thinking (data : String)
  | tool_use (id : String) (name : String) (input : JVal)
  | tool_result (tool_use_id : String) (content : String)

/-- A top-level system block. -/
structure SysBlock where
  text : String
  cache_control : Bool
deriving DecidableEq

/-- Anthropic chat roles (tool results are remapped to `user`). -/
inductive ARole where
  | user
  | assistant
deriving DecidableEq

/-- One Anthropic chat message. -/
structure AChatMessage where
  role : ARole
  content : List ABlock

/-- The Anthropic payload (`{ system?, messages }`). -/
structure AnthropicPayload where
  system : Option (List SysBlock) := none
  messages : List AChatMessage

/-- The thinking / redacted-thinking blocks pushed before the main content
of a turn (a missing signature is encoded as the empty string). -/
def thinkBlocks (msg : Message) : List ABlock :=
  (match msg.thinking with
   | some th => [ABlock.thinking th.thinking (th.signature.getD "")]
   | none => []) ++
  (match msg.redacted_thinking with
   | some r => [ABlock.redacted_thinking r.data]
   | none => [])

/-- The tool-use blocks built from an assistant turn's tool calls; a tool
call whose `arguments` text fails to parse raises (uncaught `JSON.parse`). -/
def parseToolUses (parse : String → Option JVal) :
    List ToolCall → Except Unit (List ABlock)
  | [] => .ok []
  | tc :: rest =>
    match parse tc.function.arguments with
    | none => .error ()
    | some v =>
      match parseToolUses parse rest with
      | .error e => .error e
      | .ok blocks => .ok (.tool_use tc.id tc.function.name v :: blocks)

/-- Encoding of one non-system message (the else-branch of the loop body of
`AnthropicAdapter.compile`). JS truthiness makes ANY present `tool_calls`
array — even an empty one — select the tool-call branch, and the
`msg.content || ''` there equals `msg.content` because `content` is always
a string. Only the plain-text branch honours `_cache_breakpoint`. -/
def encodeChatMessage (parse : String → Option JVal) (msg : Message) :
    Except Unit AChatMessage :=
  let role : ARole :=
    if msg.role = .tool then .user
    else if msg.role = .assistant then .assistant else .user
  if msg.role = .tool then
    .ok ⟨role, [.tool_result (msg.tool_call_id.getD "") msg.content]⟩
  else
    match msg.tool_calls with
    | some tcs =>
      match parseToolUses parse tcs with
      | .error e => .error e
      | .ok callBlocks =>
        .ok ⟨role, thinkBlocks msg ++ [.text msg.content false] ++ callBlocks⟩
    | none =>
      .ok ⟨role, thinkBlocks msg ++ [.text msg.content msg.cache_breakpoint]⟩

/-- One iteration of the message loop of `AnthropicAdapter.compile`. -/
def step (parse : String → Option JVal)
    (acc : List SysBlock × List AChatMessage) (msg : Message) :
    Except Unit (List SysBlock × List AChatMessage) :=
  if msg.role = .system then
    .ok (acc.1 ++ [⟨msg.content, msg.cache_breakpoint⟩], acc.2)
  else
    match encodeChatMessage parse msg with
    | .error e => .error e
    | .ok cm => .ok (acc.1, acc.2 ++ [cm])

/-- The message loop of `AnthropicAdapter.compile`. -/
def build (parse : String → Option JVal) :
    List Message → List SysBlock × List AChatMessage →
      Except Unit (List SysBlock × List AChatMessage)
  | [], acc => .ok acc
  | msg :: rest, acc =>
    match step parse acc msg with
    | .error e => .error e
    | .ok acc' => build parse rest acc'

/-- Source: `AnthropicAdapter.compile`. -/
def compile (parse : String → Option JVal) (messages : List Message) :
    Except Unit AnthropicPayload :=
  match build parse messages ([], []) with
  | .error e => .error e
  | .ok acc =>
    .ok { system := if 0 < acc.1.length then some acc.1 else none,
          messages := acc.2 }

/-- Blocks allowed in the main (non-reasoning) run of a turn. -/
def isMainBlock : ABlock → Prop
  | .text _ _ => True
  | .tool_use _ _ _ => True
  | _ => False

end AnthropicAdapter

theorem GeminiAdapter.parseFunctionCalls_error {parse : String → Option JVal}
    {tcs : List ToolCall} {tc : ToolCall} (hmem : tc ∈ tcs)
    (hbad : parse tc.function.arguments = none) :
    GeminiAdapter.parseFunctionCalls parse tcs = .error () := by
  induction tcs with
  | nil => exact absurd hmem (by simp)
  | cons t rest ih =>
    rw [GeminiAdapter.parseFunctionCalls]
    cases hp : parse t.function.arguments with
    | none => rfl
    | some v =>
      rcases List.mem_cons.mp hmem with htc | hrest
      · subst htc
        rw [hp] at hbad
        exact absurd hbad (by simp)
      · rw [ih hrest]

theorem GeminiAdapter.parseFunctionCalls_ok {parse : String → Option JVal}
    {tcs : List ToolCall}
    (hgood : ∀ tc ∈ tcs, (parse tc.function.arguments).isSome = true) :
    ∃ parts, GeminiAdapter.parseFunctionCalls parse tcs = .ok parts := by
  induction tcs with
  | nil => exact ⟨[], rfl⟩
  | cons t rest ih =>
    obtain ⟨v, hv⟩ := Option.isSome_iff_exists.mp
      (hgood t (List.mem_cons_self t rest))
    obtain ⟨parts, hparts⟩ := ih (fun tc htc => hgood tc (List.mem_cons_of_mem t htc))
    refine ⟨.functionCall t.function.name v :: parts, ?_⟩
    rw [GeminiAdapter.parseFunctionCalls, hv, hparts]

theorem GeminiAdapter.step_error_of_badToolCall {parse : String → Option JVal}
    {msg : Message} {tcs : List ToolCall} {tc : ToolCall}
    (hrole : msg.role = .assistant) (htc : msg.tool_calls = some tcs)
    (hmem : tc ∈ tcs) (hbad : parse tc.function.arguments = none)
    (acc : List GeminiAdapter.GPart × List GeminiAdapter.GContent) :
    GeminiAdapter.step parse acc msg = .error () := by
  simp only [GeminiAdapter.step, hrole, htc]
  rw [if_pos (List.length_pos.mpr (List.ne_nil_of_mem hmem))]
  rw [GeminiAdapter.parseFunctionCalls_error hmem hbad]

theorem GeminiAdapter.step_ok {parse : String → Option JVal} {msg : Message}
    (hgood : ∀ tcs, msg.tool_calls = some tcs →
      ∀ tc ∈ tcs, (parse tc.function.arguments).isSome = true)
    (acc : List GeminiAdapter.GPart × List GeminiAdapter.GContent) :
    ∃ acc', GeminiAdapter.step parse acc msg = .ok acc' := by
  cases hres : GeminiAdapter.step parse acc msg with
  | ok acc' => exact ⟨acc', rfl⟩
  | error e =>
    exfalso
    cases hrole : msg.role with
    | system =>
      simp only [GeminiAdapter.step, hrole] at hres
      exact Except.noConfusion hres
    | tool =>
      simp only [GeminiAdapter.step, hrole] at hres
      exact Except.noConfusion hres
    | user =>
      simp only [GeminiAdapter.step, hrole] at hres
      exact Except.noConfusion hres
    | assistant =>
      cases htc : msg.tool_calls with
      | none =>
        simp only [GeminiAdapter.step, hrole, htc] at hres
        exact Except.noConfusion hres
      | some tcs =>
        obtain ⟨parts, hparts⟩ :=
          GeminiAdapter.parseFunctionCalls_ok (hgood tcs htc)
        by_cases hlen : 0 < tcs.length
        · simp only [GeminiAdapter.step, hrole, htc] at hres
          rw [if_pos hlen, hparts] at hres
          exact Except.noConfusion hres
        · simp only [GeminiAdapter.step, hrole, htc] at hres
          rw [if_neg hlen] at hres
          exact Except.noConfusion hres

theorem GeminiAdapter.build_error_of_mem {parse : String → Option JVal}
    {ms : List Message} {msg : Message} (hmem : msg ∈ ms)
    (hstep : ∀ acc, GeminiAdapter.step parse acc msg = .error ()) :
    ∀ acc, GeminiAdapter.build parse ms acc = .error () := by
  induction ms with
  | nil => exact absurd hmem (by simp)
  | cons m rest ih =>
    intro acc
    rw [GeminiAdapter.build]
    rcases List.mem_cons.mp hmem with hm | hrest
    · subst hm
      rw [hstep acc]
    · cases hs : GeminiAdapter.step parse acc m with
      | error e => cases e; rfl
      | ok acc' => exact ih hrest acc'

theorem GeminiAdapter.build_ok {parse : String → Option JVal} {ms : List Message}
    (hgood : ∀ msg ∈ ms, ∀ tcs, msg.tool_calls = some tcs →
      ∀ tc ∈ tcs, (parse tc.function.arguments).isSome = true) :
    ∀ acc, ∃ acc', GeminiAdapter.build parse ms acc = .ok acc' := by
  induction ms with
  | nil => exact fun acc => ⟨acc, rfl⟩
  | cons m rest ih =>
    intro acc
    obtain ⟨acc1, hacc1⟩ := GeminiAdapter.step_ok
      (hgood m (List.mem_cons_self m rest)) acc
    obtain ⟨acc2, hacc2⟩ :=
      ih (fun msg hm => hgood msg (List.mem_cons_of_mem m hm)) acc1
    refine ⟨acc2, ?_⟩
    rw [GeminiAdapter.build, hacc1]
    exact hacc2

theorem AnthropicAdapter.parseToolUses_main {parse : String → Option JVal} :
    ∀ {tcs : List ToolCall} {bs : List AnthropicAdapter.ABlock},
      AnthropicAdapter.parseToolUses parse tcs = .ok bs →
      ∀ b ∈ bs, AnthropicAdapter.isMainBlock b := by
  intro tcs
  induction tcs with
  | nil =>
    intro bs h b hb
    rw [AnthropicAdapter.parseToolUses] at h
    have hbs : bs = [] := (Except.ok.inj h).symm
    subst hbs
    exact absurd hb (by simp)
  | cons t rest ih =>
    intro bs h b hb
    rw [AnthropicAdapter.parseToolUses] at h
    cases hp : parse t.function.arguments with
    | none => rw [hp] at h; exact absurd h (by simp)
    | some v =>
      rw [hp] at h
      cases hr : AnthropicAdapter.parseToolUses parse rest with
      | error e => rw [hr] at h; exact absurd h (by simp)
      | ok blocks =>
        rw [hr] at h
        have hbs : bs = .tool_use t.id t.function.name v :: blocks :=
          (Except.ok.inj h).symm
        subst hbs
        rcases List.mem_cons.mp hb with hb1 | hb2
        · rw [hb1]; trivial
        · exact ih hr b hb2

theorem AnthropicAdapter.build_append (parse : String → Option JVal)
    (l1 l2 : List Message)
    (acc : List AnthropicAdapter.SysBlock × List AnthropicAdapter.AChatMessage) :
    AnthropicAdapter.build parse (l1 ++ l2) acc =
      match AnthropicAdapter.build parse l1 acc with
      | .error e => .error e
      | .ok acc' => AnthropicAdapter.build parse l2 acc' := by
  induction l1 generalizing acc with
  | nil => rw [List.nil_append, AnthropicAdapter.build]
  | cons m rest ih =>
    rw [List.cons_append, AnthropicAdapter.build, AnthropicAdapter.build]
    cases hs : AnthropicAdapter.step parse acc m with
    | error e => rfl
    | ok acc' => exact ih acc'

/-- Support message value used by concrete witnesses. -/
def wUser : Message := { role := .user, content := "" }

/-- Support parse function for witnesses: every string fails to parse. -/
def wParse : String → Option JVal := fun _ => none

/-- Support tool-result message whose content is not valid JSON. -/
def wToolMsg : Message :=
  { role := .tool, content := "oops", name := some "srch",
    tool_call_id := some "c1" }

/-- Support tool call whose arguments text is not valid JSON. -/
def wBadCall : ToolCall :=
  { id := "c1", function := { name := "srch", arguments := "oops" } }

/-- Support assistant message carrying the malformed tool call. -/
def wBadAssistant : Message :=
  { role := .assistant, content := "", tool_calls := some [wBadCall] }

/-- Support assistant message carrying signature-less thinking. -/
def wThinkMsg : Message :=
  { role := .assistant, content := "Hi", thinking := some { thinking := "th" } }

/-- Support system message. -/
def wSysMsg : Message := { role := .system, content := "s" }

/-- Witness configuration: 10-token budget, preserve 5, 4 tokens per
message. -/
def wCfgWalk : Janitor.JanitorConfig :=
  { maxHistoryTokens := some 10, preserveRecentTokens := some 5,
    tokenizer := fun ms => 4 * ms.length }

/-- Witness configuration: 1-token budget, preserve 0, 10 tokens per
message (every message exceeds the preserve budget). -/
def wCfgSup : Janitor.JanitorConfig :=
  { maxHistoryTokens := some 1, preserveRecentTokens := some 0,
    tokenizer := fun ms => 10 * ms.length }

/-- Witness configuration: 1-token budget, preserve 100, 10 tokens per
message (the walk always reaches index 0). -/
def wCfgAll : Janitor.JanitorConfig :=
  { maxHistoryTokens := some 1, preserveRecentTokens := some 100,
    tokenizer := fun ms => 10 * ms.length }

open Stitcher Janitor

/-- C5 counterexample: canonicalizing an object whose `_cache_breakpoint`
key originally sits in last position moves that key to its ascending
lexical position (the front), instead of keeping its original relative
position as the claim states. -/
theorem stitcher_cache_breakpoint_resorted_cex :
    orderKeysDeterministically
        (.obj [("role", .str "user"), ("_cache_breakpoint", .bool true)]) =
      .obj [("_cache_breakpoint", .bool true), ("role", .str "user")] ∧
    JVal.obj [("_cache_breakpoint", .bool true), ("role", .str "user")] ≠
      JVal.obj [("role", .str "user"), ("_cache_breakpoint", .bool true)] := by
  constructor
  · rw [orderKeys_obj]
    simp [List.insertionSort, List.orderedInsert, keyLe, strLe, lexLe, canonField,
      orderKeysDeterministically]
  · simp

/-- C5 (amended): canonicalization rebuilds ALL keys of an object, the
`_cache_breakpoint` key included, in ascending lexical order; the special
treatment of the cache-breakpoint key is only that its value is copied
without recursive canonicalization, so every cache-breakpoint field of the
original object survives verbatim in the result. -/
theorem stitcher_cache_breakpoint_order (fields : List (String × JVal)) :
    List.Sorted keyLe (objFields (orderKeysDeterministically (.obj fields))) ∧
    (objFields (orderKeysDeterministically (.obj fields))).Perm
      (fields.map canonField) ∧
    ∀ p ∈ fields, p.1 = "_cache_breakpoint" →
      p ∈ objFields (orderKeysDeterministically (.obj fields)) := by
  rw [orderKeys_obj]
  refine ⟨?_, ?_, ?_⟩
  · exact sorted_map_canonField (List.sorted_insertionSort keyLe fields)
  · exact (List.perm_insertionSort keyLe fields).map canonField
  · intro p hp hbp
    have hmem : p ∈ List.insertionSort keyLe fields :=
      (List.mem_insertionSort keyLe).mpr hp
    have hcf : canonField p = p := by simp [canonField, hbp]
    exact hcf ▸ List.mem_map_of_mem canonField hmem

/-- C5 amended-claim witness at a concrete object. -/
theorem stitcher_cache_breakpoint_order_witness :
    List.Sorted keyLe (objFields (orderKeysDeterministically
        (.obj [("role", JVal.str "user"), ("_cache_breakpoint", JVal.bool true)]))) ∧
    (objFields (orderKeysDeterministically
        (.obj [("role", JVal.str "user"), ("_cache_breakpoint", JVal.bool true)]))).Perm
      ([("role", JVal.str "user"), ("_cache_breakpoint", JVal.bool true)].map canonField) ∧
    ∀ p ∈ ([("role", JVal.str "user"), ("_cache_breakpoint", JVal.bool true)] :
        List (String × JVal)), p.1 = "_cache_breakpoint" →
      p ∈ objFields (orderKeysDeterministically
        (.obj [("role", JVal.str "user"), ("_cache_breakpoint", JVal.bool true)])) :=
  stitcher_cache_breakpoint_order
    [("role", JVal.str "user"), ("_cache_breakpoint", JVal.bool true)]

/-- C6: canonicalization is idempotent; two objects with the same fields in
any insertion order (JS object keys are unique) canonicalize to the same
value and to identical serialized text; and an unrecognized extension field
survives canonicalization with its key intact and its value canonicalized —
in particular unchanged whenever the value is atomic. -/
theorem stitcher_canonicalization_convergence :
    (∀ v : JVal,
      orderKeysDeterministically (orderKeysDeterministically v) =
        orderKeysDeterministically v) ∧
    (∀ fields fields' : List (String × JVal), fields.Perm fields' →
      (fieldKeys fields).Nodup →
      orderKeysDeterministically (.obj fields) =
        orderKeysDeterministically (.obj fields') ∧
      stringifyPayload (.obj fields) = stringifyPayload (.obj fields')) ∧
    (∀ fields (k : String) (v : JVal), (k, v) ∈ fields →
      k ≠ "_cache_breakpoint" →
      (k, orderKeysDeterministically v) ∈
        objFields (orderKeysDeterministically (.obj fields))) ∧
    (∀ v : JVal, isAtom v → orderKeysDeterministically v = v) := by
  refine ⟨orderKeys_idem, ?_, ?_, fun v hv => orderKeys_atom hv⟩
  · intro fields fields' hperm hnd
    have hsorteq : List.insertionSort keyLe fields = List.insertionSort keyLe fields' := by
      apply sorted_perm_nodup_eq
      · exact (List.perm_insertionSort keyLe fields).trans
          (hperm.trans (List.perm_insertionSort keyLe fields').symm)
      · exact List.sorted_insertionSort keyLe fields
      · exact List.sorted_insertionSort keyLe fields'
      · have hp : (fieldKeys (List.insertionSort keyLe fields)).Perm (fieldKeys fields) :=
          (List.perm_insertionSort keyLe fields).map Prod.fst
        exact hp.nodup_iff.mpr hnd
    constructor
    · rw [orderKeys_obj, orderKeys_obj, hsorteq]
    · unfold stringifyPayload
      rw [orderKeys_obj, orderKeys_obj, hsorteq]
  · intro fields k v hmem hk
    rw [orderKeys_obj]
    have hmem' : (k, v) ∈ List.insertionSort keyLe fields :=
      (List.mem_insertionSort keyLe).mpr hmem
    have hcf : canonField (k, v) = (k, orderKeysDeterministically v) := by
      simp [canonField, hk]
    exact hcf ▸ List.mem_map_of_mem canonField hmem'

/-- C7: with placement `last_user` and non-empty injected XML, assembly
wraps the XML in the fixed delimiter block and appends it to the content of
the last message whose role is `user` — creating no new message and leaving
every other message unchanged — and, when no user message exists, appends
exactly one new synthetic user message containing only the trimmed
block. -/
theorem stitcher_last_user_injection (ms : List Message) (xml : String)
    (hx : xml ≠ "") :
    (∀ i, lastUserIdx ms = some i →
      i < ms.length ∧
      (ms.getD i default).role = .user ∧
      (∀ j, i < j → j < ms.length → (ms.getD j default).role ≠ .user) ∧
      compileInjection ms (some ⟨some xml, some .last_user⟩) =
        ms.set i { ms.getD i default with
          content := (ms.getD i default).content ++ stateBlockOf xml } ∧
      (compileInjection ms (some ⟨some xml, some .last_user⟩)).length = ms.length ∧
      (∀ j, j ≠ i →
        (compileInjection ms (some ⟨some xml, some .last_user⟩)).getD j default =
          ms.getD j default)) ∧
    (lastUserIdx ms = none →
      compileInjection ms (some ⟨some xml, some .last_user⟩) =
        ms ++ [{ role := .user, content := jsTrim (stateBlockOf xml) }]) := by
  have hgate : compileInjection ms (some ⟨some xml, some .last_user⟩) =
      injectIntoLastUser ms xml := by
    simp [compileInjection, hx]
  constructor
  · intro i hi
    have hinj : injectIntoLastUser ms xml =
        ms.set i { ms.getD i default with
          content := (ms.getD i default).content ++ stateBlockOf xml } := by
      unfold injectIntoLastUser
      rw [hi]
    refine ⟨lastUserIdx_lt hi, lastUserIdx_role hi, lastUserIdx_last hi,
      hgate.trans hinj, ?_, ?_⟩
    · rw [hgate, hinj]
      exact List.length_set ms i _
    · intro j hj
      rw [hgate, hinj]
      simp only [List.getD_eq_getElem?_getD]
      rw [List.getElem?_set_ne (fun h => hj h.symm)]
  · intro hnone
    rw [hgate]
    unfold injectIntoLastUser
    rw [hnone]

/-- C7 witness: appending to an existing trailing user message, and
creating a synthetic user message when none exists. -/
theorem stitcher_last_user_injection_witness :
    compileInjection [{ role := .user, content := "Hello" }]
        (some ⟨some "<s>1</s>", some .last_user⟩) =
      [{ role := .user, content := "Hello" }].set 0
        { ([{ role := .user, content := "Hello" }] : List Message).getD 0 default with
          content := (([{ role := .user, content := "Hello" }] :
            List Message).getD 0 default).content ++ stateBlockOf "<s>1</s>" } ∧
    compileInjection [{ role := .system, content := "sys" }]
        (some ⟨some "<s>1</s>", some .last_user⟩) =
      [{ role := .system, content := "sys" }] ++
        [{ role := .user, content := jsTrim (stateBlockOf "<s>1</s>") }] :=
  ⟨((stitcher_last_user_injection [{ role := .user, content := "Hello" }]
      "<s>1</s>" (by decide)).1 0 rfl).2.2.2.1,
    (stitcher_last_user_injection [{ role := .system, content := "sys" }]
      "<s>1</s>" (by decide)).2 rfl⟩

/-- C1: in token mode, when the effective total `max(local estimate,
external hint)` exceeds `max_tokens`, `compact` walks the history from the
newest message backward accumulating per-message estimated sizes and stops
the moment the running sum would exceed `preserve_tokens`; the stopping
index is the split point: the kept suffix fits the preserve budget and
including one more message would exceed it. When the newest message alone
exceeds the preserve budget the split point is forced to `length - 1`,
keeping exactly that newest message, and any split point produced is at
most `length - 1`, so a non-empty history never keeps zero original
messages. -/
theorem janitor_token_budget_walk (cfg : Janitor.JanitorConfig)
    (st : Janitor.JanitorState) (history : List Message)
    (M P n s kept : Nat) (tok : Message → Nat)
    (hs : st.suppressNextCompression = false)
    (hM : cfg.maxHistoryTokens = some M) (hM0 : 0 < M)
    (hP : cfg.preserveRecentTokens = some P)
    (hne : history ≠ [])
    (hover : M < max (getTokenCount cfg history) (st.externalTokenUsage.getD 0))
    (hn : n = history.length)
    (htok : tok = fun m => getTokenCount cfg [m])
    (hkept : kept = keptWalk tok P history.reverse 0)
    (hsplit : s = if kept = 0 then n - 1 else n - kept) :
    evaluateBudget cfg st history =
      (if 0 < s then some s else none, { st with externalTokenUsage := none }) ∧
    s ≤ n - 1 ∧
    (kept ≠ 0 →
      sumTok tok (history.drop s) ≤ P ∧
      (0 < s → P < sumTok tok (history.drop (s - 1)))) ∧
    (∀ newest, history.getLast? = some newest → P < tok newest →
      kept = 0 ∧ s = n - 1) := by
  subst hn htok hkept hsplit
  have hn0 : 0 < history.length := List.length_pos.mpr hne
  have hk_le : keptWalk (fun m => getTokenCount cfg [m]) P history.reverse 0 ≤
      history.length := by
    simpa using keptWalk_le_length (fun m => getTokenCount cfg [m]) P history.reverse 0
  refine ⟨?_, ?_, ?_, ?_⟩
  · rw [evaluateBudget_token cfg st history M P hs hM hM0 hP hne hover,
      tokenModeSplit_eq cfg P hne]
  · split <;> omega
  · intro hk0
    rw [if_neg hk0]
    constructor
    · have hsum := keptWalk_sum_le (fun m => getTokenCount cfg [m]) P
        history.reverse 0 (Nat.zero_le P)
      rw [List.take_reverse] at hsum
      rw [sumTok_reverse] at hsum
      simpa using hsum
    · intro hspos
      have hklt : keptWalk (fun m => getTokenCount cfg [m]) P history.reverse 0 <
          history.reverse.length := by
        simp only [List.length_reverse]
        omega
      have hstop := keptWalk_stop (fun m => getTokenCount cfg [m]) P
        history.reverse 0 hklt
      rw [List.take_reverse] at hstop
      rw [sumTok_reverse] at hstop
      have hidx : history.length -
          (keptWalk (fun m => getTokenCount cfg [m]) P history.reverse 0 + 1) =
          history.length - keptWalk (fun m => getTokenCount cfg [m]) P
            history.reverse 0 - 1 := by
        omega
      rw [hidx] at hstop
      simpa using hstop
  · intro newest hlast hbig
    have hrev : history.reverse.head? = some newest := by
      rw [List.head?_reverse]
      exact hlast
    have hk0 : keptWalk (fun m => getTokenCount cfg [m]) P history.reverse 0 = 0 := by
      cases hrevl : history.reverse with
      | nil => rw [hrevl] at hrev; exact absurd hrev (by simp)
      | cons a tl =>
        rw [hrevl] at hrev
        have ha : a = newest := by simpa using hrev
        subst ha
        rw [keptWalk]
        rw [if_pos]
        simpa using hbig
    exact ⟨hk0, by rw [if_pos hk0]⟩

/-- C1 witness: three 4-token messages against budget 10 / preserve 5; the
walk keeps one message and splits at index 2. -/
theorem janitor_token_budget_walk_witness :
    evaluateBudget wCfgWalk ⟨none, false⟩ [wUser, wUser, wUser] =
      (if 0 < 2 then some 2 else none,
        { (⟨none, false⟩ : Janitor.JanitorState) with externalTokenUsage := none }) ∧
    sumTok (fun m => getTokenCount wCfgWalk [m])
        (([wUser, wUser, wUser] : List Message).drop 2) ≤ 5 ∧
    5 < sumTok (fun m => getTokenCount wCfgWalk [m])
        (([wUser, wUser, wUser] : List Message).drop 1) := by
  have h := janitor_token_budget_walk wCfgWalk ⟨none, false⟩ [wUser, wUser, wUser]
    10 5 3 2 1 (fun m => getTokenCount wCfgWalk [m]) rfl rfl (by decide) rfl
    (by decide) (by decide) rfl rfl rfl rfl
  have h3 := h.2.2.1 (by decide)
  exact ⟨h.1, h3.1, h3.2 (by decide)⟩

/-- C9: in token mode with the effective total over `max_tokens`, when the
backward walk reaches index 0 without the running sum ever exceeding
`preserve_tokens`, the split index is 0 and `compact` returns the input
history unchanged — no summary message is produced, the suppression flag is
not set, and the external hint is still consumed. -/
theorem janitor_walk_exhausts_history (cfg : Janitor.JanitorConfig)
    (st : Janitor.JanitorState) (history : List Message) (M P : Nat)
    (hs : st.suppressNextCompression = false)
    (hM : cfg.maxHistoryTokens = some M) (hM0 : 0 < M)
    (hP : cfg.preserveRecentTokens = some P)
    (hne : history ≠ [])
    (hover : M < max (getTokenCount cfg history) (st.externalTokenUsage.getD 0))
    (hall : sumTok (fun m => getTokenCount cfg [m]) history ≤ P) :
    tokenModeSplit cfg P history = 0 ∧
    evaluateBudget cfg st history = (none, { st with externalTokenUsage := none }) ∧
    compress cfg st history = (history, { st with externalTokenUsage := none }) ∧
    ({ st with externalTokenUsage := none } :
      Janitor.JanitorState).suppressNextCompression = false := by
  have hn0 : 0 < history.length := List.length_pos.mpr hne
  have hkeptall : keptWalk (fun m => getTokenCount cfg [m]) P history.reverse 0 =
      history.length := by
    have := keptWalk_all (fun m => getTokenCount cfg [m]) P history.reverse 0
      (by rw [sumTok_reverse]; omega)
    simpa using this
  have hsplit0 : tokenModeSplit cfg P history = 0 := by
    rw [tokenModeSplit_eq cfg P hne, hkeptall]
    rw [if_neg (by omega)]
    omega
  have hev : evaluateBudget cfg st history =
      (none, { st with externalTokenUsage := none }) := by
    rw [evaluateBudget_token cfg st history M P hs hM hM0 hP hne hover, hsplit0]
    rfl
  refine ⟨hsplit0, hev, ?_, hs⟩
  rw [compress, hev]

/-- C9 witness: two 10-token messages, budget 1, preserve 100; an external
hint of 50 pushes the total over budget but the walk keeps everything, so
the history is returned unchanged and the hint is consumed. -/
theorem janitor_walk_exhausts_history_witness :
    tokenModeSplit wCfgAll 100 [wUser, wUser] = 0 ∧
    evaluateBudget wCfgAll ⟨some 50, false⟩ [wUser, wUser] =
      (none, { (⟨some 50, false⟩ : Janitor.JanitorState) with
        externalTokenUsage := none }) ∧
    compress wCfgAll ⟨some 50, false⟩ [wUser, wUser] =
      ([wUser, wUser], { (⟨some 50, false⟩ : Janitor.JanitorState) with
        externalTokenUsage := none }) ∧
    ({ (⟨some 50, false⟩ : Janitor.JanitorState) with externalTokenUsage := none } :
      Janitor.JanitorState).suppressNextCompression = false :=
  janitor_walk_exhausts_history wCfgAll ⟨some 50, false⟩ [wUser, wUser] 1 100
    rfl rfl (by decide) rfl (by decide) (by decide) (by decide)

/-- C2 counterexample: after a compaction fires (call k), a call k+1 on an
EMPTY history returns unchanged but does NOT clear the suppression flag —
the empty-history early return precedes the suppression check — so call
k+2 remains suppressed and does not fire even though its history is over
budget, contradicting the claim for that sequence of calls. -/
theorem janitor_suppression_empty_call_cex :
    (evaluateBudget wCfgSup ⟨none, false⟩ [wUser, wUser]).1 = some 1 ∧
    (compress wCfgSup ⟨none, false⟩ [wUser, wUser]).2 = ⟨none, true⟩ ∧
    compress wCfgSup ⟨none, true⟩ [] = ([], ⟨none, true⟩) ∧
    1 < max (getTokenCount wCfgSup [wUser, wUser]) 0 ∧
    (evaluateBudget wCfgSup ⟨none, true⟩ [wUser, wUser]).1 = none :=
  ⟨rfl, rfl, rfl, by decide, rfl⟩

/-- C2 (amended): when a compaction fires on call k the suppression flag is
set; if call k+1's input history is non-empty, that call clears the flag
and returns its input unchanged even if still over budget, and call k+2 is
again eligible to fire (an over-budget token-mode call with a positive
split point fires); a call k+1 on an empty history returns unchanged
without consuming the suppression flag. -/
theorem janitor_suppression_hysteresis (cfg : Janitor.JanitorConfig)
    (st st1 : Janitor.JanitorState) (h1 h2 r1 : List Message)
    (hfire : (evaluateBudget cfg st h1).1.isSome = true)
    (hc1 : compress cfg st h1 = (r1, st1)) :
    st1.suppressNextCompression = true ∧
    (h2 ≠ [] →
      compress cfg st1 h2 = (h2, { st1 with suppressNextCompression := false })) ∧
    (h2 = [] → compress cfg st1 h2 = (h2, st1)) ∧
    (∀ h3 M P, cfg.maxHistoryTokens = some M → 0 < M →
      cfg.preserveRecentTokens = some P → h3 ≠ [] →
      M < max (getTokenCount cfg h3)
        (({ st1 with suppressNextCompression := false } :
          Janitor.JanitorState).externalTokenUsage.getD 0) →
      0 < tokenModeSplit cfg P h3 →
      (evaluateBudget cfg { st1 with suppressNextCompression := false } h3).1.isSome
        = true) := by
  have hsup : st1.suppressNextCompression = true := by
    cases hev : evaluateBudget cfg st h1 with
    | mk o st0 =>
      cases o with
      | none => rw [hev] at hfire; exact absurd hfire (by simp)
      | some s =>
        have hcx : compress cfg st h1 = executeCompression cfg st0 h1 s := by
          rw [compress, hev]
        have hsnd : st1 = (executeCompression cfg st0 h1 s).2 :=
          congrArg Prod.snd (hc1.symm.trans hcx)
        rw [hsnd]
        rfl
  refine ⟨hsup, ?_, ?_, ?_⟩
  · intro hne2
    have hlen : ¬ h2.length = 0 := by simpa [List.length_eq_zero] using hne2
    have hev2 : evaluateBudget cfg st1 h2 =
        (none, { st1 with suppressNextCompression := false }) := by
      rw [evaluateBudget, if_neg hlen, hsup]
      simp only [if_true]
    rw [compress, hev2]
  · intro h2nil
    subst h2nil
    have hev2 : evaluateBudget cfg st1 [] = (none, st1) := by
      rw [evaluateBudget]
      simp
    rw [compress, hev2]
  · intro h3 M P hM hM0 hP hne3 hover3 hpos
    rw [evaluateBudget_token cfg _ h3 M P rfl hM hM0 hP hne3 hover3]
    rw [if_pos hpos]
    rfl

/-- C2 amended-claim witness: fire on call 1 (two 10-token messages over a
1-token budget), a suppressed-but-clearing call 2 on a non-empty history,
and an eligible call 3. -/
theorem janitor_suppression_hysteresis_witness :
    ((compress wCfgSup ⟨none, false⟩ [wUser, wUser]).2).suppressNextCompression
      = true ∧
    compress wCfgSup (compress wCfgSup ⟨none, false⟩ [wUser, wUser]).2 [wUser] =
      ([wUser], { (compress wCfgSup ⟨none, false⟩ [wUser, wUser]).2 with
        suppressNextCompression := false }) ∧
    (evaluateBudget wCfgSup
      { (compress wCfgSup ⟨none, false⟩ [wUser, wUser]).2 with
        suppressNextCompression := false } [wUser, wUser]).1.isSome = true := by
  have h := janitor_suppression_hysteresis wCfgSup ⟨none, false⟩
    (compress wCfgSup ⟨none, false⟩ [wUser, wUser]).2 [wUser, wUser] [wUser]
    (compress wCfgSup ⟨none, false⟩ [wUser, wUser]).1 rfl rfl
  exact ⟨h.1, h.2.1 (by simp),
    h.2.2.2 [wUser, wUser] 1 0 rfl (by decide) rfl (by simp) (by decide) (by decide)⟩

/-- C3 counterexample: on a 2-message history compaction fires with split
point 1 (one message summarized), yet the compacted result has the SAME
length as the original — refuting "strictly less than N whenever compaction
fires". -/
theorem janitor_compaction_length_cex :
    (evaluateBudget wCfgSup ⟨none, false⟩ [wUser, wUser]).1 = some 1 ∧
    (compress wCfgSup ⟨none, false⟩ [wUser, wUser]).1.length = 2 ∧
    ([wUser, wUser] : List Message).length = 2 :=
  ⟨rfl, rfl, rfl⟩

/-- C3 (amended): whenever compaction fires with split point s (and any
produced split point satisfies 1 ≤ s ≤ N), the result is exactly one
synthetic system summary message followed by the original messages [s, N)
unchanged and in their original relative order; hence the result's last
N−s messages equal the original's last N−s messages, its length is
N−s+1 ≤ N, and the length is strictly below N exactly when s ≥ 2 (at least
two messages summarized) — not whenever compaction fires. -/
theorem janitor_compaction_shape (cfg : Janitor.JanitorConfig)
    (st st' : Janitor.JanitorState) (history : List Message) (s : Nat)
    (hev : evaluateBudget cfg st history = (some s, st')) :
    1 ≤ s ∧ s ≤ history.length ∧
    ∃ summary : Message, summary.role = .system ∧
      compress cfg st history =
        (summary :: history.drop s,
          { st' with suppressNextCompression := true }) ∧
      (compress cfg st history).1.length = history.length - s + 1 ∧
      (compress cfg st history).1.length ≤ history.length ∧
      ((compress cfg st history).1.length < history.length ↔ 2 ≤ s) ∧
      (compress cfg st history).1.drop 1 = history.drop s := by
  obtain ⟨hpos, hle⟩ := evaluateBudget_some hev
  have hcomp : compress cfg st history = executeCompression cfg st' history s := by
    rw [compress, hev]
  have hshape : ∃ t : String, executeCompression cfg st' history s =
      ({ role := .system, content := t } :: history.drop s,
        { st' with suppressNextCompression := true }) := by
    unfold executeCompression
    exact ⟨_, rfl⟩
  obtain ⟨t, hx⟩ := hshape
  have hlen : (compress cfg st history).1.length = history.length - s + 1 := by
    rw [hcomp, hx]
    simp only [List.length_cons, List.length_drop]
  refine ⟨hpos, hle, { role := .system, content := t }, rfl, ?_, hlen, ?_, ?_, ?_⟩
  · rw [hcomp, hx]
  · rw [hlen]; omega
  · rw [hlen]; omega
  · rw [hcomp, hx]
    simp

/-- C3 amended-claim witness at split point 1 on a 2-message history. -/
theorem janitor_compaction_shape_witness :
    1 ≤ 1 ∧ 1 ≤ ([wUser, wUser] : List Message).length ∧
    ∃ summary : Message, summary.role = .system ∧
      compress wCfgSup ⟨none, false⟩ [wUser, wUser] =
        (summary :: ([wUser, wUser] : List Message).drop 1, ⟨none, true⟩) ∧
      (compress wCfgSup ⟨none, false⟩ [wUser, wUser]).1.length =
        ([wUser, wUser] : List Message).length - 1 + 1 ∧
      (compress wCfgSup ⟨none, false⟩ [wUser, wUser]).1.length ≤
        ([wUser, wUser] : List Message).length ∧
      ((compress wCfgSup ⟨none, false⟩ [wUser, wUser]).1.length <
        ([wUser, wUser] : List Message).length ↔ 2 ≤ 1) ∧
      (compress wCfgSup ⟨none, false⟩ [wUser, wUser]).1.drop 1 =
        ([wUser, wUser] : List Message).drop 1 :=
  janitor_compaction_shape wCfgSup ⟨none, false⟩ ⟨none, false⟩ [wUser, wUser] 1 rfl

/-- C10: Gemini error-handling asymmetry. A tool-result message whose
content is not valid JSON never raises: its content is wrapped as
`{result: content}`; a whole compile succeeds whenever every assistant
tool call's arguments parse, regardless of tool-result contents. An
assistant tool call whose arguments text is not valid JSON makes the
transformation fail with a parse error. -/
theorem gemini_parse_asymmetry :
    (∀ (parse : String → Option JVal)
        (acc : List GeminiAdapter.GPart × List GeminiAdapter.GContent)
        (msg : Message), msg.role = .tool → parse msg.content = none →
      GeminiAdapter.step parse acc msg =
        .ok (acc.1, acc.2 ++ [⟨.user, [.functionResponse
          ((msg.name.orElse fun _ => msg.tool_call_id).getD "unknown")
          (JVal.obj [("result", JVal.str msg.content)])]⟩])) ∧
    (∀ (parse : String → Option JVal) (ms : List Message),
      (∀ msg ∈ ms, ∀ tcs, msg.tool_calls = some tcs →
        ∀ tc ∈ tcs, (parse tc.function.arguments).isSome = true) →
      ∃ p, GeminiAdapter.compile parse ms = .ok p) ∧
    (∀ (parse : String → Option JVal) (ms : List Message) (msg : Message)
        (tcs : List ToolCall) (tc : ToolCall),
      msg ∈ ms → msg.role = .assistant → msg.tool_calls = some tcs →
      tc ∈ tcs → parse tc.function.arguments = none →
      GeminiAdapter.compile parse ms = .error ()) := by
  refine ⟨?_, ?_, ?_⟩
  · intro parse acc msg hrole hparse
    simp only [GeminiAdapter.step, hrole, hparse]
  · intro parse ms hgood
    obtain ⟨acc, hacc⟩ := GeminiAdapter.build_ok hgood ([], [])
    refine ⟨⟨(GeminiAdapter.degrade acc.1 acc.2).2,
      if 0 < (GeminiAdapter.degrade acc.1 acc.2).1.length
        then some (GeminiAdapter.degrade acc.1 acc.2).1 else none⟩, ?_⟩
    rw [GeminiAdapter.compile, hacc]
  · intro parse ms msg tcs tc hmem hrole htc htcm hbad
    have hberr := GeminiAdapter.build_error_of_mem hmem
      (GeminiAdapter.step_error_of_badToolCall hrole htc htcm hbad) ([], [])
    rw [GeminiAdapter.compile, hberr]

/-- C10 witness: with a parse function that rejects everything, a
non-JSON tool result compiles (wrapped as `{result: ...}`) while a
malformed assistant tool call fails the whole compile. -/
theorem gemini_parse_asymmetry_witness :
    GeminiAdapter.step wParse ([], []) wToolMsg =
      .ok ([], [⟨.user, [.functionResponse "srch"
        (JVal.obj [("result", JVal.str "oops")])]⟩]) ∧
    (∃ p, GeminiAdapter.compile wParse [wToolMsg] = .ok p) ∧
    GeminiAdapter.compile wParse [wToolMsg, wBadAssistant] = .error () := by
  have h := gemini_parse_asymmetry
  refine ⟨h.1 wParse ([], []) wToolMsg rfl rfl, h.2.1 wParse [wToolMsg] ?_,
    h.2.2 wParse [wToolMsg, wBadAssistant] wBadAssistant [wBadCall] wBadCall
      (by simp) rfl rfl (by simp) rfl⟩
  intro msg hm tcs htc tc htcm
  rw [List.mem_singleton] at hm
  subst hm
  exact absurd htc (by simp [wToolMsg])

/-- C8: the Anthropic transformation encodes an assistant turn's thinking
block and then its redacted-thinking block (when present) BEFORE the text
and tool-use blocks of the same turn, with a missing thinking signature
encoded as the empty string; and a trailing assistant turn (any non-system
turn) is passed through as one ordinary chat message appended to the
payload rather than removed. -/
theorem anthropic_thinking_blocks :
    (∀ (parse : String → Option JVal) (msg : Message)
        (cm : AnthropicAdapter.AChatMessage),
      msg.role = .assistant →
      AnthropicAdapter.encodeChatMessage parse msg = .ok cm →
      cm.role = .assistant ∧
      (∃ main, cm.content = AnthropicAdapter.thinkBlocks msg ++ main ∧
        ∀ b ∈ main, AnthropicAdapter.isMainBlock b) ∧
      (∀ t, msg.thinking = some ⟨t, none⟩ →
        cm.content.head? = some (.thinking t ""))) ∧
    (∀ (parse : String → Option JVal) (ms : List Message) (msg : Message)
        (p : AnthropicAdapter.AnthropicPayload)
        (cm : AnthropicAdapter.AChatMessage),
      ¬ msg.role = .system →
      AnthropicAdapter.compile parse ms = .ok p →
      AnthropicAdapter.encodeChatMessage parse msg = .ok cm →
      AnthropicAdapter.compile parse (ms ++ [msg]) =
        .ok ⟨p.system, p.messages ++ [cm]⟩) := by
  constructor
  · intro parse msg cm hrole henc
    have hnt : ¬ msg.role = .tool := by rw [hrole]; intro h; exact Role.noConfusion h
    rw [AnthropicAdapter.encodeChatMessage] at henc
    rw [if_neg hnt] at henc
    have hrw : (if msg.role = .tool then AnthropicAdapter.ARole.user
        else if msg.role = .assistant then .assistant else .user) = .assistant := by
      rw [if_neg hnt, if_pos hrole]
    cases htc : msg.tool_calls with
    | none =>
      simp only [htc] at henc
      have hcm : cm = ⟨.assistant, AnthropicAdapter.thinkBlocks msg ++
          [.text msg.content msg.cache_breakpoint]⟩ := by
        rw [← Except.ok.inj henc, hrw]
      subst hcm
      refine ⟨rfl, ⟨[.text msg.content msg.cache_breakpoint], rfl, ?_⟩, ?_⟩
      · intro b hb
        rw [List.mem_singleton] at hb
        rw [hb]
        trivial
      · intro t hth
        simp [AnthropicAdapter.thinkBlocks, hth]
    | some tcs =>
      simp only [htc] at henc
      cases hpc : AnthropicAdapter.parseToolUses parse tcs with
      | error e =>
        simp only [hpc] at henc
        exact absurd henc (by simp)
      | ok callBlocks =>
        simp only [hpc] at henc
        have hcm : cm = ⟨.assistant, AnthropicAdapter.thinkBlocks msg ++
            ([.text msg.content false] ++ callBlocks)⟩ := by
          rw [← Except.ok.inj henc, hrw, List.append_assoc]
        subst hcm
        refine ⟨rfl, ⟨[.text msg.content false] ++ callBlocks, rfl, ?_⟩, ?_⟩
        · intro b hb
          rcases List.mem_append.mp hb with hb1 | hb2
          · rw [List.mem_singleton] at hb1
            rw [hb1]
            trivial
          · exact AnthropicAdapter.parseToolUses_main hpc b hb2
        · intro t hth
          simp [AnthropicAdapter.thinkBlocks, hth]
  · intro parse ms msg p cm hrole hcomp henc
    cases hb : AnthropicAdapter.build parse ms ([], []) with
    | error e =>
      rw [AnthropicAdapter.compile, hb] at hcomp
      exact absurd hcomp (by simp)
    | ok acc =>
      rw [AnthropicAdapter.compile, hb] at hcomp
      have hp : p = ⟨if 0 < acc.1.length then some acc.1 else none, acc.2⟩ :=
        (Except.ok.inj hcomp).symm
      have hstep : AnthropicAdapter.step parse acc msg = .ok (acc.1, acc.2 ++ [cm]) := by
        rw [AnthropicAdapter.step, if_neg hrole, henc]
      have hbapp : AnthropicAdapter.build parse (ms ++ [msg]) ([], []) =
          .ok (acc.1, acc.2 ++ [cm]) := by
        rw [AnthropicAdapter.build_append, hb]
        simp only [AnthropicAdapter.build, hstep]
      rw [AnthropicAdapter.compile, hbapp, hp]

/-- C8 witness: a signature-less thinking assistant turn is encoded with a
leading `thinking` block (empty signature) before its text block, and a
trailing assistant turn survives compilation appended unmodified. -/
theorem anthropic_thinking_blocks_witness :
    ((⟨.assistant, [.thinking "th" "", .text "Hi" false]⟩ :
      AnthropicAdapter.AChatMessage)).role = .assistant ∧
    (∃ main, ([.thinking "th" "", .text "Hi" false] :
        List AnthropicAdapter.ABlock) =
      AnthropicAdapter.thinkBlocks wThinkMsg ++ main ∧
      ∀ b ∈ main, AnthropicAdapter.isMainBlock b) ∧
    ([.thinking "th" "", .text "Hi" false] :
      List AnthropicAdapter.ABlock).head? = some (.thinking "th" "") ∧
    AnthropicAdapter.compile wParse ([wSysMsg] ++ [wThinkMsg]) =
      .ok ⟨some [⟨"s", false⟩],
        [⟨.assistant, [.thinking "th" "", .text "Hi" false]⟩]⟩ := by
  have h1 := anthropic_thinking_blocks.1 wParse wThinkMsg
    ⟨.assistant, [.thinking "th" "", .text "Hi" false]⟩ rfl rfl
  have h2 := anthropic_thinking_blocks.2 wParse [wSysMsg] wThinkMsg
    ⟨some [⟨"s", false⟩], []⟩ ⟨.assistant, [.thinking "th" "", .text "Hi" false]⟩
    (by intro h; exact Role.noConfusion h) rfl rfl
  exact ⟨h1.1, h1.2.1, h1.2.2 "th" rfl, h2⟩

/-- C4 counterexample: (OpenAI) compiling a lone trailing assistant turn
removes it and creates NO new turn — the prefill content is dropped
entirely; (Gemini) for `[tool-result, assistant]` no user turn exists in
the IR, yet no top-level system instruction is created either (the
tool-result was remapped to a `user`-role content entry, defeating the
fallback check) and the prefill text is dropped. -/
theorem adapter_prefill_no_target_cex :
    OpenAIAdapter.compile [{ role := .assistant, content := "Hi" }] = [] ∧
    GeminiAdapter.compile wParse
        [wToolMsg, { role := .assistant, content := "Hi" }] =
      .ok ⟨[⟨.user, [.functionResponse "srch"
        (JVal.obj [("result", JVal.str "oops")])]⟩], none⟩ :=
  ⟨rfl, rfl⟩

/-- C4 (amended): for every message sequence ending in an assistant turn
with no tool calls, the OpenAI transformation removes that trailing turn
and appends its content — wrapped in the fixed prefill-enforcement
template — to the content of the nearest preceding user-or-system turn
found by backward search; when no user or system turn exists the popped
content is dropped and NO new turn is created. The Gemini transformation
pops a trailing plain model message and appends the wrapped text to the
last preceding user entry whose first part is a text part; when no user
entry exists at all it falls back to a top-level system-instruction part
(a prefill whose only candidate user entries are function responses is
dropped). -/
theorem adapter_prefill_degradation :
    (∀ (ms : List Message) (last : Message) (i : Nat),
      last.role = .assistant →
      (last.tool_calls = none ∨ last.tool_calls = some []) →
      OpenAIAdapter.lastUserOrSystemIdx (ms.map OpenAIAdapter.strip) = some i →
      i < ms.length ∧
      (((ms.map OpenAIAdapter.strip).getD i default).role = .user ∨
        ((ms.map OpenAIAdapter.strip).getD i default).role = .system) ∧
      (∀ j, i < j → j < ms.length →
        ¬(((ms.map OpenAIAdapter.strip).getD j default).role = .user ∨
          ((ms.map OpenAIAdapter.strip).getD j default).role = .system)) ∧
      OpenAIAdapter.compile (ms ++ [last]) =
        (ms.map OpenAIAdapter.strip).set i
          { (ms.map OpenAIAdapter.strip).getD i default with
            content := ((ms.map OpenAIAdapter.strip).getD i default).content ++
              "\n\n" ++ Prompts.getPrefillEnforcement last.content } ∧
      (OpenAIAdapter.compile (ms ++ [last])).length = ms.length) ∧
    (∀ (ms : List Message) (last : Message),
      last.role = .assistant →
      (last.tool_calls = none ∨ last.tool_calls = some []) →
      (∀ m ∈ ms, ¬(m.role = .user ∨ m.role = .system)) →
      OpenAIAdapter.compile (ms ++ [last]) = ms.map OpenAIAdapter.strip) ∧
    (∀ (sys : List GeminiAdapter.GPart) (cs : List GeminiAdapter.GContent)
        (t : String) (i : Nat) (t0 : String) (tl : List GeminiAdapter.GPart),
      GeminiAdapter.lastUserTextIdx cs = some i →
      (cs.getD i default).parts = .text t0 :: tl →
      i < cs.length ∧ (cs.getD i default).role = .user ∧
      (∀ j, i < j → j < cs.length →
        ¬ GeminiAdapter.isUserText (cs.getD j default)) ∧
      GeminiAdapter.degrade sys (cs ++ [⟨.model, [.text t]⟩]) =
        (sys, cs.set i ⟨.user, [.text (t0 ++ "\n\n" ++
          Prompts.getPrefillEnforcement t)]⟩)) ∧
    (∀ (sys : List GeminiAdapter.GPart) (cs : List GeminiAdapter.GContent)
        (t : String),
      (∀ c ∈ cs, ¬ c.role = .user) →
      GeminiAdapter.degrade sys (cs ++ [⟨.model, [.text t]⟩]) =
        (sys ++ [.text (Prompts.getPrefillEnforcement t)], cs)) := by
  have hstrip_role : ∀ m : Message, (OpenAIAdapter.strip m).role = m.role :=
    fun m => rfl
  refine ⟨?_, ?_, ?_, ?_⟩
  · intro ms last i hrole htc hidx
    have hlt : i < ms.length := by
      have := lastIdxWhere_lt hidx
      simpa using this
    have hprop := lastIdxWhere_prop hidx
    have hafter := lastIdxWhere_after hidx
    have hcompile : OpenAIAdapter.compile (ms ++ [last]) =
        (ms.map OpenAIAdapter.strip).set i
          { (ms.map OpenAIAdapter.strip).getD i default with
            content := ((ms.map OpenAIAdapter.strip).getD i default).content ++
              "\n\n" ++ Prompts.getPrefillEnforcement last.content } := by
      rw [OpenAIAdapter.compile]
      simp only [List.map_append, List.map_cons, List.map_nil,
        List.getLast?_concat, List.dropLast_concat]
      rw [if_pos ⟨hrole, htc⟩]
      simp only [hidx]
      rfl
    refine ⟨hlt, hprop, ?_, hcompile, ?_⟩
    · intro j hji hjlen
      exact hafter j hji (by simpa using hjlen)
    · rw [hcompile]
      simp
  · intro ms last hrole htc hnone
    have hnone' : OpenAIAdapter.lastUserOrSystemIdx (ms.map OpenAIAdapter.strip) =
        none := by
      apply lastIdxWhere_none_of
      intro a ha
      obtain ⟨m, hm, rfl⟩ := List.mem_map.mp ha
      exact hnone m hm
    rw [OpenAIAdapter.compile]
    simp only [List.map_append, List.map_cons, List.map_nil,
      List.getLast?_concat, List.dropLast_concat]
    rw [if_pos ⟨hrole, htc⟩]
    simp only [hnone']
  · intro sys cs t i t0 tl hidx hparts
    have hlt : i < cs.length := lastIdxWhere_lt hidx
    have hprop : GeminiAdapter.isUserText (cs.getD i default) :=
      lastIdxWhere_prop hidx
    have hafter := lastIdxWhere_after hidx
    refine ⟨hlt, hprop.1, hafter, ?_⟩
    rw [GeminiAdapter.degrade]
    simp only [List.getLast?_concat, List.dropLast_concat]
    simp only [hidx, hparts]
    rw [if_neg]
    intro hall
    have hmem : (⟨.user, [.text (t0 ++ "\n\n" ++
        Prompts.getPrefillEnforcement t)]⟩ : GeminiAdapter.GContent) ∈
        cs.set i ⟨.user, [.text (t0 ++ "\n\n" ++
          Prompts.getPrefillEnforcement t)]⟩ := by
      have hlt' : i < (cs.set i ⟨.user, [.text (t0 ++ "\n\n" ++
          Prompts.getPrefillEnforcement t)]⟩).length := by
        simpa using hlt
      have hm := List.getElem_mem hlt'
      rw [List.getElem_set_self hlt'] at hm
      exact hm
    exact hall _ hmem rfl
  · intro sys cs t hnouser
    have hnone : GeminiAdapter.lastUserTextIdx cs = none := by
      apply lastIdxWhere_none_of
      intro c hc hut
      exact hnouser c hc hut.1
    rw [GeminiAdapter.degrade]
    simp only [List.getLast?_concat, List.dropLast_concat]
    simp only [hnone]
    rw [if_pos hnouser]

/-- C4 amended-claim witness: OpenAI appends the wrapped prefill to a
preceding user turn (spec scenario `[user, assistant]`), and Gemini falls
back to a system-instruction part when no user content exists. -/
theorem adapter_prefill_degradation_witness :
    OpenAIAdapter.compile
        [{ role := .user, content := "Help." },
          { role := .assistant, content := "<thinking>1." }] =
      ([{ role := .user, content := "Help." }].map OpenAIAdapter.strip).set 0
        { ([{ role := .user, content := "Help." }].map
            OpenAIAdapter.strip).getD 0 default with
          content := (([{ role := .user, content := "Help." }].map
            OpenAIAdapter.strip).getD 0 default).content ++ "\n\n" ++
            Prompts.getPrefillEnforcement "<thinking>1." } ∧
    GeminiAdapter.degrade [] ([] ++ [⟨.model, [.text "Hi"]⟩]) =
      ([] ++ [.text (Prompts.getPrefillEnforcement "Hi")], []) := by
  have h := adapter_prefill_degradation
  refine ⟨?_, h.2.2.2 [] [] "Hi" (fun c hc => absurd hc (List.not_mem_nil c))⟩
  have h1 := h.1 [{ role := .user, content := "Help." }]
    { role := .assistant, content := "<thinking>1." } 0 rfl (Or.inl rfl) rfl
  exact h1.2.2.2.1

/-- C6 witness: concrete key-reordered objects converge; a concrete
extension field survives. -/
theorem stitcher_canonicalization_convergence_witness :
    orderKeysDeterministically (.obj [("b", JVal.null), ("a", JVal.num 1)]) =
      orderKeysDeterministically (.obj [("a", JVal.num 1), ("b", JVal.null)]) ∧
    stringifyPayload (.obj [("b", JVal.null), ("a", JVal.num 1)]) =
      stringifyPayload (.obj [("a", JVal.num 1), ("b", JVal.null)]) ∧
    orderKeysDeterministically (orderKeysDeterministically (JVal.str "x")) =
      orderKeysDeterministically (JVal.str "x") ∧
    ("custom", orderKeysDeterministically (JVal.str "keep")) ∈
      objFields (orderKeysDeterministically (.obj [("custom", JVal.str "keep")])) ∧
    orderKeysDeterministically (JVal.str "keep") = JVal.str "keep" := by
  have h := stitcher_canonicalization_convergence
  have hperm : ([("b", JVal.null), ("a", JVal.num 1)] : List (String × JVal)).Perm
      [("a", JVal.num 1), ("b", JVal.null)] :=
    List.Perm.swap ("a", JVal.num 1) ("b", JVal.null) []
  have hnd : (fieldKeys [("b", JVal.null), ("a", JVal.num 1)]).Nodup := by
    simp [fieldKeys]
  exact ⟨(h.2.1 _ _ hperm hnd).1, (h.2.1 _ _ hperm hnd).2, h.1 _,
    h.2.2.1 _ "custom" (JVal.str "keep") (List.mem_singleton.mpr rfl) (by simp),
    h.2.2.2 _ trivial⟩

end ContextChef
